import Mathlib

/-!
lib_base: `base::weak_qptr`, `crl::guard_traits` and the Linux file utilities.

A shallow embedding of `src/base/weak_qptr.h` and of `ShowInFolder` /
`DeleteDirectory` from `src/base/platform/linux/base_file_utilities_linux.cpp`,
followed by the theorems that settle the specification's claims.

Pointers are natural numbers, `0` being `nullptr`.  The handle stores a
`QPointer<const QObject>` whatever the template parameter `T` of
`weak_qptr<T>` is, and the `static_cast`s between `T*` and `const QObject*`
are the identity on addresses, so the handle carries no `T`.  The operations
between two specializations `weak_qptr<T>` and `weak_qptr<Other>` take the two
classes as arguments, since the language decides by them whether the operation
can be instantiated.
-/

namespace base

/-! ## The host object system -/

/-- Modelled from the spec: the identity/liveness token of a trackable object
(the declaration lives in the host GUI framework, not under `src/`).  One per
object, created when the object is constructed, flipped to dead when the
destruction of the object begins. -/
structure Token where
  /-- address of the object that owns the token -/
  object : Nat
  /-- the liveness flag, `true` once the destruction of the owner began -/
  dead : Bool
deriving DecidableEq, Repr

/-- Modelled from the spec: the host object-identity system.  Token `i` is the
`i`-th token ever created; the live objects are the owners of the tokens that
are not dead. -/
structure World where
  tokens : List Token
deriving DecidableEq, Repr

/-- The world before any object was constructed. -/
def World.init : World := ⟨[]⟩

/-- First index `i + j` such that the `j`-th token of the list is the token of
a live object at address `p`. -/
def findToken (p : Nat) : List Token → Nat → Option Nat
  | [], _ => none
  | tk :: rest, i =>
    if tk.object = p ∧ tk.dead = false then some i else findToken p rest (i + 1)

/-- The token of the live object at address `p`, if there is one. -/
def World.tokenOf (w : World) (p : Nat) : Option Nat :=
  findToken p w.tokens 0

/-- Token `t` is dead in `w` (a token that does not exist counts as dead). -/
def World.isDead (w : World) (t : Nat) : Bool :=
  match w.tokens[t]? with
  | some tk => tk.dead
  | none => true

/-- What the environment does to objects. -/
inductive Event where
  /-- an object is constructed at the address -/
  | construct (addr : Nat)
  /-- the object at the address is destroyed -/
  | destroy (addr : Nat)
deriving DecidableEq, Repr

/-- Modelled from the spec: one step of the host object system.  Constructing
an object needs a non-null address that no live object occupies and registers
a fresh token; destroying needs a live object at the address and flips its
token to dead. -/
def World.step (w : World) : Event → Option World
  | .construct a =>
    if a = 0 then none
    else match w.tokenOf a with
      | some _ => none
      | none => some ⟨w.tokens ++ [⟨a, false⟩]⟩
  | .destroy a =>
    match w.tokenOf a with
    | none => none
    | some _ =>
      some ⟨w.tokens.map fun tk =>
        if tk.object = a ∧ tk.dead = false then { tk with dead := true } else tk⟩

/-- A sequence of steps; `none` when one of them is impossible. -/
def World.run (w : World) : List Event → Option World
  | [] => some w
  | e :: es =>
    match w.step e with
    | none => none
    | some w1 => w1.run es

/-- No two live objects share an address and no token belongs to the null
address. -/
def World.WF (w : World) : Prop :=
  w.tokens.Pairwise (fun x y => x.dead = true ∨ y.dead = true ∨ x.object ≠ y.object)
    ∧ ∀ tk ∈ w.tokens, tk.object ≠ 0

instance (w : World) : Decidable w.WF := by
  unfold World.WF; infer_instance

/-! ## `QPointer<const QObject>` -/

/-- Modelled from the spec: the framework's nulling smart pointer `QPointer`
(declared outside `src/`): a reference to the token of the target and the
address of the target. -/
structure QPointer where
  /-- the token referenced, `none` for a pointer never bound -/
  d : Option Nat
  /-- the address stored -/
  value : Nat
deriving DecidableEq, Repr

namespace QPointer

/-- Modelled from the spec: `QPointer()`, bound to nothing. -/
def null : QPointer := ⟨none, 0⟩

/-- Modelled from the spec: `QPointer(T *p)`: null for a null address, else
bound to the token of the object at `p`; `none` when `p` is dangling, which
the language leaves undefined. -/
def ofPtr (w : World) (p : Nat) : Option QPointer :=
  if p = 0 then some null
  else match w.tokenOf p with
    | some t => some ⟨some t, p⟩
    | none => none

/-- Modelled from the spec: `QPointer::isNull()`: no token, a dead token, or a
null address. -/
def isNull (w : World) (q : QPointer) : Bool :=
  match q.d with
  | none => true
  | some t => w.isDead t || q.value == 0

/-- Modelled from the spec: `QPointer::data()`: the address while the target
lives, null afterwards. -/
def data (w : World) (q : QPointer) : Nat :=
  if q.isNull w then 0 else q.value

/-- Modelled from the spec: the conversion of a `QPointer` to its raw pointer,
then to `bool`, which `!_object` goes through. -/
def toBool (w : World) (q : QPointer) : Bool :=
  q.data w != 0

/-- Modelled from the spec: `operator==` of the framework's nulling smart
pointer (outside `src/`): it compares the pointers read through `data()`,
which are null once the target is destroyed. -/
def eq (w : World) (p q : QPointer) : Bool :=
  p.data w == q.data w

/-- Modelled from the spec: `<=>` of two nulling smart pointers (outside
`src/`): the built-in comparison of the raw pointers they convert to, which
are the pointers read through `data()`. -/
def cmp (w : World) (p q : QPointer) : Ordering :=
  compare (p.data w) (q.data w)

/-- Modelled from the spec: moving out of a `QPointer` leaves it null. -/
def move (q : QPointer) : QPointer × QPointer :=
  (q, null)

end QPointer

/-! ## `base::weak_qptr<T>` (src/base/weak_qptr.h) -/

/-- A class of the program, by its index. -/
abbrev ClassId := Nat

/-- Why an operation of a class template cannot be used. -/
inductive IllFormed where
  /-- the constraint of the template removes the operation from the overloads -/
  | notViable
  /-- the body of the operation names a private member of another class -/
  | privateMember
deriving DecidableEq, Repr

/-- The class `weak_qptr<T>`: its only member is `_object`, which is private. -/
structure weak_qptr where
  _object : QPointer
deriving DecidableEq, Repr

namespace weak_qptr

/-- The constructor `weak_qptr() = default`. -/
def default : weak_qptr := ⟨QPointer.null⟩

/-- The constructor `weak_qptr(std::nullptr_t)`. -/
def ofNullptr : weak_qptr := ⟨QPointer.null⟩

/-- The constructor `weak_qptr(T *value)`: `_object(static_cast<const QObject*>(value))`. -/
def ofPtr (w : World) (value : Nat) : Option weak_qptr :=
  (QPointer.ofPtr w value).map fun q => ⟨q⟩

/-- The copy constructor `weak_qptr(const weak_qptr &other)`. -/
def copy (other : weak_qptr) : weak_qptr :=
  ⟨other._object⟩

/-- The move constructor `weak_qptr(weak_qptr &&other)`: the new handle and
what is left in `other`. -/
def move (other : weak_qptr) : weak_qptr × weak_qptr :=
  (⟨(QPointer.move other._object).1⟩, ⟨(QPointer.move other._object).2⟩)

/-- The constraint of the converting templates:
`std::is_base_of_v<T, Other> && !std::is_same_v<T, Other>`, where `isBaseOf`
is the relation `std::is_base_of_v` of the program. -/
def convertible (isBaseOf : ClassId → ClassId → Bool) (T Other : ClassId) : Bool :=
  isBaseOf T Other && decide (T ≠ Other)

/-- The access of a member of `weak_qptr<T>` to `other._object`, where `other`
is a `weak_qptr<Other>`: `_object` is declared `private`, the header declares
no friend but the defaulted `operator<=>`, and two specializations of the
template are different classes, so the member is accessible only when the two
classes are the same. -/
def canAccessObject (T Other : ClassId) : Bool :=
  decide (T = Other)

/-- The converting constructor `weak_qptr(const weak_qptr<Other> &other)` of
`weak_qptr<T>`, with the body `_object(other._object)`. -/
def convert (isBaseOf : ClassId → ClassId → Bool) (T Other : ClassId)
    (other : weak_qptr) : Except IllFormed weak_qptr :=
  if convertible isBaseOf T Other then
    if canAccessObject T Other then .ok ⟨other._object⟩
    else .error .privateMember
  else .error .notViable

/-- The converting constructor `weak_qptr(weak_qptr<Other> &&other)` of
`weak_qptr<T>`, with the body `_object(std::move(other._object))`: the new
handle and what is left in `other`. -/
def convertMove (isBaseOf : ClassId → ClassId → Bool) (T Other : ClassId)
    (other : weak_qptr) : Except IllFormed (weak_qptr × weak_qptr) :=
  if convertible isBaseOf T Other then
    if canAccessObject T Other then
      .ok (⟨(QPointer.move other._object).1⟩, ⟨(QPointer.move other._object).2⟩)
    else .error .privateMember
  else .error .notViable

/-- The member `reset(T *value = nullptr)`. -/
def reset (w : World) (_self : weak_qptr) (value : Nat) : Option weak_qptr :=
  (QPointer.ofPtr w value).map fun q => ⟨q⟩

/-- The assignment `operator=(T *value)`: `reset(value)`. -/
def assignPtr (w : World) (self : weak_qptr) (value : Nat) : Option weak_qptr :=
  reset w self value

/-- The copy assignment `operator=(const weak_qptr &other)`. -/
def assign (self other : weak_qptr) : weak_qptr :=
  { self with _object := other._object }

/-- The move assignment `operator=(weak_qptr &&other)`: the handle assigned to
and what is left in `other`. -/
def moveAssign (self other : weak_qptr) : weak_qptr × weak_qptr :=
  ({ self with _object := (QPointer.move other._object).1 },
    { other with _object := (QPointer.move other._object).2 })

/-- The converting assignment `operator=(const weak_qptr<Other> &other)` of
`weak_qptr<T>`, with the body `_object = other._object`. -/
def convertAssign (isBaseOf : ClassId → ClassId → Bool) (T Other : ClassId)
    (self other : weak_qptr) : Except IllFormed weak_qptr :=
  if convertible isBaseOf T Other then
    if canAccessObject T Other then .ok { self with _object := other._object }
    else .error .privateMember
  else .error .notViable

/-- The converting assignment `operator=(weak_qptr<Other> &&other)` of
`weak_qptr<T>`, with the body `_object = std::move(other._object)`: the handle
assigned to and what is left in `other`. -/
def convertMoveAssign (isBaseOf : ClassId → ClassId → Bool) (T Other : ClassId)
    (self other : weak_qptr) : Except IllFormed (weak_qptr × weak_qptr) :=
  if convertible isBaseOf T Other then
    if canAccessObject T Other then
      .ok ({ self with _object := (QPointer.move other._object).1 },
        { other with _object := (QPointer.move other._object).2 })
    else .error .privateMember
  else .error .notViable

/-- The member `null()`: `_object.isNull()`. -/
def null (w : World) (h : weak_qptr) : Bool :=
  h._object.isNull w

/-- The member `empty()`: `!_object`. -/
def empty (w : World) (h : weak_qptr) : Bool :=
  !h._object.toBool w

/-- The member `get()`: `_object.data()` cast back to `T*`. -/
def get (w : World) (h : weak_qptr) : Nat :=
  h._object.data w

/-- The member `explicit operator bool()`: `!empty()`. -/
def toBool (w : World) (h : weak_qptr) : Bool :=
  !h.empty w

/-- The member `operator->()`: `get()`. -/
def arrow (w : World) (h : weak_qptr) : Nat :=
  h.get w

/-- The defaulted `operator<=>(weak_qptr, weak_qptr)`: the comparison of the
members `_object`. -/
def cmp (w : World) (a b : weak_qptr) : Ordering :=
  QPointer.cmp w a._object b._object

/-- The `operator==` that the defaulted `<=>` brings along: the comparison of
the members `_object`. -/
def eq (w : World) (a b : weak_qptr) : Bool :=
  QPointer.eq w a._object b._object

/-- The free `operator==(const weak_qptr<T> &pointer, std::nullptr_t)`. -/
def eqNullptr (w : World) (pointer : weak_qptr) : Bool :=
  pointer.get w == 0

/-- The free `operator==(std::nullptr_t, const weak_qptr<T> &pointer)`. -/
def nullptrEq (w : World) (pointer : weak_qptr) : Bool :=
  eqNullptr w pointer

/-- The free `operator!=(const weak_qptr<T> &pointer, std::nullptr_t)`. -/
def neNullptr (w : World) (pointer : weak_qptr) : Bool :=
  !eqNullptr w pointer

/-- The free `operator!=(std::nullptr_t, const weak_qptr<T> &pointer)`. -/
def nullptrNe (w : World) (pointer : weak_qptr) : Bool :=
  !eqNullptr w pointer

/-- A handle of the world `w`: a handle never bound stores the null address, a
bound one stores the non-null address of the owner of a token that exists. -/
def WF (w : World) (h : weak_qptr) : Prop :=
  match h._object.d with
  | none => h._object.value = 0
  | some t => (w.tokens[t]?).map Token.object = some h._object.value ∧ h._object.value ≠ 0

instance (w : World) (h : weak_qptr) : Decidable (h.WF w) := by
  unfold WF; split <;> infer_instance

end weak_qptr

/-- The function `make_weak(T *value)`: `return value;`. -/
def make_weak (w : World) (value : Nat) : Option weak_qptr :=
  weak_qptr.ofPtr w value

end base

namespace crl

/-- The member `guard_traits<weak_qptr<T>>::create(const weak_qptr<T> &value)`. -/
def guard_traits.create (value : base.weak_qptr) : base.weak_qptr :=
  base.weak_qptr.copy value

/-- The member `guard_traits<weak_qptr<T>>::create(weak_qptr<T> &&value)`: the
guard and what is left in `value`. -/
def guard_traits.createMove (value : base.weak_qptr) : base.weak_qptr × base.weak_qptr :=
  base.weak_qptr.move value

/-- The member `guard_traits<weak_qptr<T>>::check`: `guard.get() != nullptr`. -/
def guard_traits.check (w : base.World) (guard : base.weak_qptr) : Bool :=
  guard.get w != 0

end crl

namespace base

/-- The handles that the class builds from a handle `h` of the same class: by
the copy and move constructors, and by the copy and move assignments to a
handle `self`. -/
def weak_qptr.builtFrom (self h : weak_qptr) : List weak_qptr :=
  [weak_qptr.copy h, (weak_qptr.move h).1,
   weak_qptr.assign self h, (weak_qptr.moveAssign self h).1]

/-- A program with a chain of classes: class `T` is a base of class `Other`
when `T ≤ Other`; class 0 is a base of class 1. -/
def chainOfClasses (T Other : ClassId) : Bool :=
  decide (T ≤ Other)

/-- A value that a query of a handle returns. -/
inductive Obs where
  | bool (b : Bool)
  | ptr (p : Nat)
  | ord (o : Ordering)
deriving DecidableEq, Repr

/-- The public queries of a handle: the members, the comparisons with the null
literal, the comparisons with another handle on either side, and the guard
check. -/
inductive Query where
  | null | empty | get | toBool | arrow
  | eqNullptr | nullptrEq | neNullptr | nullptrNe
  | eqLeft (other : weak_qptr) | eqRight (other : weak_qptr)
  | cmpLeft (other : weak_qptr) | cmpRight (other : weak_qptr)
  | guardCheck

/-- The answer of the handle `h` to a query in the world `w`. -/
def observe (w : World) (h : weak_qptr) : Query → Obs
  | .null => .bool (h.null w)
  | .empty => .bool (h.empty w)
  | .get => .ptr (h.get w)
  | .toBool => .bool (h.toBool w)
  | .arrow => .ptr (h.arrow w)
  | .eqNullptr => .bool (weak_qptr.eqNullptr w h)
  | .nullptrEq => .bool (weak_qptr.nullptrEq w h)
  | .neNullptr => .bool (weak_qptr.neNullptr w h)
  | .nullptrNe => .bool (weak_qptr.nullptrNe w h)
  | .eqLeft other => .bool (weak_qptr.eq w h other)
  | .eqRight other => .bool (weak_qptr.eq w other h)
  | .cmpLeft other => .ord (weak_qptr.cmp w h other)
  | .cmpRight other => .ord (weak_qptr.cmp w other h)
  | .guardCheck => .bool (crl.guard_traits.check w (crl.guard_traits.create h))

end base

namespace base.Platform

/-! ## The Linux file utilities (src/base/platform/linux/base_file_utilities_linux.cpp) -/

/-- A `QString`, as the list of its characters; `QFile::encodeName` is the
identity on it. -/
abbrev QString := List Char

/-- The string literal helper `qstr`. -/
def qstr (s : String) : QString := s.toList

/-! ### `ShowInFolder` -/

/-- The five reveal strategies of `ShowInFolder`, in the order of the source. -/
inductive Strategy where
  /-- the call of `DBusShowInFolder` -/
  | dbus
  /-- the call of `PortalShowInFolder` -/
  | portal
  /-- the call of `ProcessShowInFolder` -/
  | process
  /-- the call of `g_app_info_launch_default_for_uri` -/
  | launchUri
  /-- the call of `QDesktopServices::openUrl` -/
  | openUrl
deriving DecidableEq, Repr

/-- The build configuration and the desktop that `ShowInFolder` runs in: what
the library calls outside `src/` return. -/
structure Desktop where
  /-- the build has DBus integration: `DESKTOP_APP_DISABLE_DBUS_INTEGRATION`
  is not defined -/
  dbusIntegration : Bool
  /-- the value of `QFileInfo(filepath).absoluteFilePath()` -/
  absoluteFilePath : QString → QString
  /-- the value of `QFileInfo(filepath).absoluteDir().absolutePath()` -/
  absoluteDirPath : QString → QString
  /-- the call of `ShowItems` on `org.freedesktop.FileManager1` returns no error -/
  showItems : QString → Bool
  /-- the call `open(filepath, O_RDONLY)` returns a descriptor -/
  openFile : QString → Bool
  /-- the call of `OpenDirectory` on the portal returns no error -/
  openDirectory : QString → Bool
  /-- the id of `g_app_info_get_default_for_type("inode/directory", false)`,
  `none` when there is no default application -/
  defaultFileManager : Option QString
  /-- the result of `QProcess::startDetached(program, arguments)` -/
  startDetached : QString → List QString → Bool
  /-- the result of `g_app_info_launch_default_for_uri` on the URI of a path -/
  launchDefaultForUri : QString → Bool
  /-- the result of `QDesktopServices::openUrl` on the URL of a path -/
  openUrl : QString → Bool

/-- The function `PortalShowInFolder`. -/
def PortalShowInFolder (env : Desktop) (filepath : QString) : Bool :=
  if env.openFile filepath = false then false
  else env.openDirectory filepath

/-- The function `DBusShowInFolder`. -/
def DBusShowInFolder (env : Desktop) (filepath : QString) : Bool :=
  env.showItems filepath

/-- The function `ProcessShowInFolder`. -/
def ProcessShowInFolder (env : Desktop) (filepath : QString) : Bool :=
  match env.defaultFileManager with
  | none => false
  | some fileManagerAppInfoId =>
    if fileManagerAppInfoId = qstr "dolphin.desktop"
        ∨ fileManagerAppInfoId = qstr "org.kde.dolphin.desktop" then
      env.startDetached (qstr "dolphin") [qstr "--select", filepath]
    else if fileManagerAppInfoId = qstr "nautilus.desktop"
        ∨ fileManagerAppInfoId = qstr "org.gnome.Nautilus.desktop"
        ∨ fileManagerAppInfoId = qstr "nautilus-folder-handler.desktop" then
      env.startDetached (qstr "nautilus") [filepath]
    else if fileManagerAppInfoId = qstr "nemo.desktop" then
      env.startDetached (qstr "nemo") [qstr "--no-desktop", filepath]
    else if fileManagerAppInfoId = qstr "konqueror.desktop"
        ∨ fileManagerAppInfoId = qstr "kfmclient_dir.desktop" then
      env.startDetached (qstr "konqueror") [qstr "--select", filepath]
    else false

/-- The part of `ShowInFolder` after the block under
`#ifndef DESKTOP_APP_DISABLE_DBUS_INTEGRATION`; `tried` lists the attempts
already made, each with the path it received. -/
def ShowInFolderRest (env : Desktop) (absolutePath absoluteDirPath : QString)
    (tried : List (Strategy × QString)) : Bool × List (Strategy × QString) :=
  if ProcessShowInFolder env absolutePath then
    (true, tried ++ [(.process, absolutePath)])
  else if env.launchDefaultForUri absoluteDirPath then
    (true, tried ++ [(.process, absolutePath), (.launchUri, absoluteDirPath)])
  else if env.openUrl absoluteDirPath then
    (true, tried ++ [(.process, absolutePath), (.launchUri, absoluteDirPath),
      (.openUrl, absoluteDirPath)])
  else
    (false, tried ++ [(.process, absolutePath), (.launchUri, absoluteDirPath),
      (.openUrl, absoluteDirPath)])

/-- The function `ShowInFolder`: the value returned and the attempts made, in
order, each with the path it received. -/
def ShowInFolder (env : Desktop) (filepath : QString) : Bool × List (Strategy × QString) :=
  let absolutePath := env.absoluteFilePath filepath
  let absoluteDirPath := env.absoluteDirPath filepath
  if env.dbusIntegration then
    if DBusShowInFolder env absolutePath then
      (true, [(.dbus, absolutePath)])
    else if PortalShowInFolder env absolutePath then
      (true, [(.dbus, absolutePath), (.portal, absolutePath)])
    else
      ShowInFolderRest env absolutePath absoluteDirPath
        [(.dbus, absolutePath), (.portal, absolutePath)]
  else
    ShowInFolderRest env absolutePath absoluteDirPath []

/-- The outcome of each of the five attempts on the paths `ShowInFolder` hands
them, whether the attempt is made or not. -/
def outcome (env : Desktop) (filepath : QString) : Strategy → Bool
  | .dbus => DBusShowInFolder env (env.absoluteFilePath filepath)
  | .portal => PortalShowInFolder env (env.absoluteFilePath filepath)
  | .process => ProcessShowInFolder env (env.absoluteFilePath filepath)
  | .launchUri => env.launchDefaultForUri (env.absoluteDirPath filepath)
  | .openUrl => env.openUrl (env.absoluteDirPath filepath)

/-- The path each attempt is specified to receive: the absolute file path for
the first three, the absolute path of the containing directory for the last
two. -/
def argument (env : Desktop) (filepath : QString) : Strategy → QString
  | .dbus => env.absoluteFilePath filepath
  | .portal => env.absoluteFilePath filepath
  | .process => env.absoluteFilePath filepath
  | .launchUri => env.absoluteDirPath filepath
  | .openUrl => env.absoluteDirPath filepath

/-- The attempts made when the strategies of the list are tried in order until
the first one that succeeds. -/
def untilFirstSuccess (env : Desktop) (filepath : QString) :
    List Strategy → List (Strategy × QString)
  | [] => []
  | s :: rest =>
    (s, argument env filepath s) ::
      (if outcome env filepath s then [] else untilFirstSuccess env filepath rest)

/-- The chain of strategies compiled into the build. -/
def chain (env : Desktop) : List Strategy :=
  if env.dbusIntegration then [.dbus, .portal, .process, .launchUri, .openUrl]
  else [.process, .launchUri, .openUrl]

/-- A desktop where only the DBus file manager answers, for a build without
DBus integration. -/
def desktopNoDBus : Desktop where
  dbusIntegration := false
  absoluteFilePath := fun p => qstr "/home/" ++ p
  absoluteDirPath := fun _ => qstr "/home"
  showItems := fun _ => true
  openFile := fun _ => true
  openDirectory := fun _ => true
  defaultFileManager := none
  startDetached := fun _ _ => false
  launchDefaultForUri := fun _ => false
  openUrl := fun _ => false

/-- A desktop with DBus integration where only the portal answers. -/
def desktopPortal : Desktop where
  dbusIntegration := true
  absoluteFilePath := fun p => qstr "/home/" ++ p
  absoluteDirPath := fun _ => qstr "/home"
  showItems := fun _ => false
  openFile := fun _ => true
  openDirectory := fun _ => true
  defaultFileManager := some (qstr "nemo.desktop")
  startDetached := fun _ _ => false
  launchDefaultForUri := fun _ => true
  openUrl := fun _ => true

/-! ### `DeleteDirectory` -/

/-- What a path of the file system names: a regular file, a directory, or a
symbolic link whose target does not exist. -/
inductive Kind where
  | file
  | dir
  | brokenLink
deriving DecidableEq, Repr

/-- A call of the operating system made by `DeleteDirectory`, with the path
passed. -/
inductive Call where
  | opendir (path : QString)
  | stat (path : QString)
  | unlink (path : QString)
  | rmdir (path : QString)
deriving DecidableEq, Repr

/-- The path a call was made on. -/
def Call.path : Call → QString
  | .opendir p => p
  | .stat p => p
  | .unlink p => p
  | .rmdir p => p

/-- The file system, as the list of the paths that exist with what they name,
and the calls made so far. -/
structure Sys where
  fs : List (QString × Kind)
  log : List Call
deriving DecidableEq, Repr

/-- What the path `p` names, `none` when it does not exist. -/
def lookup (p : QString) : List (QString × Kind) → Option Kind
  | [] => none
  | e :: rest => if e.1 = p then some e.2 else lookup p rest

/-- The path `k` lies strictly below the directory `path`: it starts with
`path` followed by a slash. -/
def under (path k : QString) : Bool :=
  (path ++ ['/']).isPrefixOf k

/-- The path `k` is `path` or lies below it. -/
def underOrSelf (path k : QString) : Bool :=
  decide (k = path) || under path k

/-- The name of `k` as an entry of the directory `path`: `k` is `path`, a
slash, and a non-empty name without a slash. -/
def childName (path k : QString) : Option QString :=
  if under path k then
    if k.drop (path.length + 1) ≠ [] ∧ '/' ∉ k.drop (path.length + 1) then
      some (k.drop (path.length + 1))
    else none
  else none

/-- The names `readdir` returns for the directory `path`, one after the other:
`.` and `..`, then the entries of the directory.  The stream is fixed when the
directory is opened. -/
def readdirAll (fs : List (QString × Kind)) (path : QString) : List QString :=
  [qstr ".", qstr ".."] ++ fs.filterMap fun e => childName path e.1

/-- The call `opendir(path)`: the stream of a directory that exists, else a
null stream. -/
def opendir (path : QString) (s : Sys) : Option (List QString) × Sys :=
  match lookup path s.fs with
  | some .dir => (some (readdirAll s.fs path), { s with log := s.log ++ [.opendir path] })
  | _ => (none, { s with log := s.log ++ [.opendir path] })

/-- The call `stat(path, &statbuf)`: the mode of a regular file or of a
directory (then the call returns zero), `none` when the call fails, as it does
on a path that does not exist and on a link to nothing. -/
def stat (path : QString) (s : Sys) : Option Kind × Sys :=
  match lookup path s.fs with
  | some .file => (some .file, { s with log := s.log ++ [.stat path] })
  | some .dir => (some .dir, { s with log := s.log ++ [.stat path] })
  | _ => (none, { s with log := s.log ++ [.stat path] })

/-- The macro `S_ISDIR`. -/
def S_ISDIR (mode : Kind) : Bool :=
  decide (mode = .dir)

/-- The call `unlink(path)`: removes a file or a link and returns zero, else
returns `-1`. -/
def unlink (path : QString) (s : Sys) : Int × Sys :=
  match lookup path s.fs with
  | some .file | some .brokenLink =>
    (0, { fs := s.fs.filter (fun e => decide (e.1 ≠ path)), log := s.log ++ [.unlink path] })
  | _ => (-1, { s with log := s.log ++ [.unlink path] })

/-- The call `rmdir(path)`: removes a directory with nothing below it and
returns zero, else returns `-1`. -/
def rmdir (path : QString) (s : Sys) : Int × Sys :=
  match lookup path s.fs with
  | some .dir =>
    if s.fs.all (fun e => !under path e.1) then
      (0, { fs := s.fs.filter (fun e => decide (e.1 ≠ path)), log := s.log ++ [.rmdir path] })
    else (-1, { s with log := s.log ++ [.rmdir path] })
  | _ => (-1, { s with log := s.log ++ [.rmdir path] })

/-- The loop `while (struct dirent *p = readdir(d))` of `DeleteDirectory`, over
the names the stream still holds; `recurse` is the recursive call.  The result
is `some (true, _)` when the loop runs to its end, `some (false, _)` when the
function returns false from inside the loop, `none` when a recursive call does
not return. -/
def deleteEntries (recurse : QString → Sys → Option (Bool × Sys)) (path : QString) :
    List QString → Sys → Option (Bool × Sys)
  | [], s => some (true, s)
  | d_name :: rest, s =>
    if d_name = qstr "." ∨ d_name = qstr ".." then
      deleteEntries recurse path rest s
    else
      match (stat (path ++ '/' :: d_name) s).1 with
      | some mode =>
        if S_ISDIR mode then
          match recurse (path ++ '/' :: d_name) (stat (path ++ '/' :: d_name) s).2 with
          | none => none
          | some r => if !r.1 then some (false, r.2) else deleteEntries recurse path rest r.2
        else
          if (unlink (path ++ '/' :: d_name) (stat (path ++ '/' :: d_name) s).2).1 ≠ 0 then
            some (false, (unlink (path ++ '/' :: d_name) (stat (path ++ '/' :: d_name) s).2).2)
          else
            deleteEntries recurse path rest
              (unlink (path ++ '/' :: d_name) (stat (path ++ '/' :: d_name) s).2).2
      | none => deleteEntries recurse path rest (stat (path ++ '/' :: d_name) s).2

/-- The first statement of `DeleteDirectory`:
`if (path.endsWith('/')) path.chop(1)`. -/
def chopSlash (path : QString) : QString :=
  if path.getLast? = some '/' then path.dropLast else path

/-- The function `DeleteDirectory`, with the depth of recursion bounded by
`fuel`: `none` when the bound is reached, else the value returned and the
state of the system.  `closedir` changes nothing of the state. -/
def DeleteDirectory : Nat → QString → Sys → Option (Bool × Sys)
  | 0, _, _ => none
  | fuel + 1, path, s =>
    match (opendir (chopSlash path) s).1 with
    | none => some (false, (opendir (chopSlash path) s).2)
    | some d =>
      match deleteEntries (DeleteDirectory fuel) (chopSlash path) d
          (opendir (chopSlash path) s).2 with
      | none => none
      | some r =>
        if !r.1 then some (false, r.2)
        else some ((rmdir (chopSlash path) r.2).1 == 0, (rmdir (chopSlash path) r.2).2)

/-- The prefixes of `k` that a slash follows: the paths of the directories `k`
lies below. -/
def ancestors : QString → List QString
  | [] => []
  | c :: cs => (if c = '/' then [[]] else []) ++ (ancestors cs).map (c :: ·)

/-- The path ends in the entry `.` or `..`. -/
def isDotEntry (q : QString) : Bool :=
  (qstr "/.").isSuffixOf q || (qstr "/..").isSuffixOf q

/-- What lies below the directory `path` is a tree of regular files and
directories: every path below names a file or a directory, ends in a name that
is neither empty, `.` nor `..`, and lies in directories that exist. -/
def Below (path : QString) (fs : List (QString × Kind)) : Prop :=
  ∀ e ∈ fs, under path e.1 = true →
    (lookup e.1 fs = some .file ∨ lookup e.1 fs = some .dir)
    ∧ e.1.getLast? ≠ some '/'
    ∧ isDotEntry e.1 = false
    ∧ ∀ p ∈ ancestors e.1, underOrSelf path p = true → lookup p fs = some .dir

/-- The directory `path` exists and what lies below it is a tree of regular
files and directories. -/
def TreeOK (path : QString) (fs : List (QString × Kind)) : Prop :=
  lookup path fs = some .dir ∧ Below path fs

instance (path : QString) (fs : List (QString × Kind)) : Decidable (TreeOK path fs) := by
  unfold TreeOK Below; infer_instance

/-- The call of `DeleteDirectory` with the bound `fuel` succeeds on every
tree that the bound is large enough for: it returns true, leaves the paths
that are neither the directory nor below it, and makes no call on an entry
`.` or `..`. -/
def DeletesTree (fuel : Nat) : Prop :=
  ∀ (path : QString) (fs : List (QString × Kind)) (log : List Call),
    path.getLast? ≠ some '/' → TreeOK path fs →
    (∀ e ∈ fs, e.1.length < path.length + fuel) →
    ∃ calls, DeleteDirectory fuel path ⟨fs, log⟩
        = some (true, ⟨fs.filter (fun e => !underOrSelf path e.1), log ++ calls⟩)
      ∧ ∀ c ∈ calls, c.path = path ∨ isDotEntry c.path = false

/-- A directory `d` holding a link to nothing `x` and a regular file `y`. -/
def brokenLinkTree : Sys :=
  { fs := [(qstr "d", .dir), (qstr "d/x", .brokenLink), (qstr "d/y", .file)], log := [] }

/-- A directory `d` holding a file `a` and a directory `b` with a file `c`,
next to a file `e` and a directory `dd`. -/
def smallTree : Sys :=
  { fs := [(qstr "d", .dir), (qstr "d/a", .file), (qstr "d/b", .dir), (qstr "d/b/c", .file),
      (qstr "e", .file), (qstr "dd", .dir)], log := [] }

end base.Platform

/-! ## Lemmas on the object system -/

namespace base

theorem findToken_some {p : Nat} {l : List Token} {i t : Nat}
    (h : findToken p l i = some t) :
    ∃ j tk, t = i + j ∧ l[j]? = some tk ∧ tk.object = p ∧ tk.dead = false := by
  induction l generalizing i with
  | nil => simp [findToken] at h
  | cons x rest ih =>
    unfold findToken at h
    split at h
    · rename_i hx
      refine ⟨0, x, ?_, by simp, hx.1, hx.2⟩
      simp at h; omega
    · obtain ⟨j, tk, ht, hj, ho, hd⟩ := ih h
      exact ⟨j + 1, tk, by omega, by simpa using hj, ho, hd⟩

theorem findToken_none {p : Nat} {l : List Token} {i : Nat}
    (h : findToken p l i = none) :
    ∀ tk ∈ l, ¬(tk.object = p ∧ tk.dead = false) := by
  induction l generalizing i with
  | nil => simp
  | cons x rest ih =>
    unfold findToken at h
    split at h
    · simp at h
    · rename_i hx
      intro tk htk
      rcases List.mem_cons.1 htk with rfl | hmem
      · exact hx
      · exact ih h tk hmem

theorem World.tokenOf_some {w : World} {p t : Nat} (h : w.tokenOf p = some t) :
    ∃ tk, w.tokens[t]? = some tk ∧ tk.object = p ∧ tk.dead = false := by
  obtain ⟨j, tk, ht, hj, ho, hd⟩ := findToken_some h
  refine ⟨tk, ?_, ho, hd⟩
  have : t = j := by omega
  subst this; exact hj

theorem World.tokenOf_none {w : World} {p : Nat} (h : w.tokenOf p = none) :
    ∀ tk ∈ w.tokens, ¬(tk.object = p ∧ tk.dead = false) :=
  findToken_none h

/-- What a step does to a token that exists: it stays in place, keeps its
owner, and its flag only ever goes from alive to dead, which happens exactly
when its live owner is destroyed. -/
theorem World.step_token {w w1 : World} {e : Event} {t : Nat} {tk : Token}
    (hs : w.step e = some w1) (ht : w.tokens[t]? = some tk) :
    ∃ tk1, w1.tokens[t]? = some tk1 ∧ tk1.object = tk.object
      ∧ (tk.dead = true → tk1.dead = true)
      ∧ (e = .destroy tk.object → tk1.dead = true)
      ∧ (e ≠ .destroy tk.object → tk1.dead = tk.dead) := by
  have hlt : t < w.tokens.length := by
    by_contra hc
    rw [List.getElem?_eq_none (by omega)] at ht
    exact Option.noConfusion ht
  cases e with
  | construct a =>
    simp only [World.step] at hs
    split at hs
    · exact Option.noConfusion hs
    · split at hs
      · exact Option.noConfusion hs
      · injection hs with hs
        subst hs
        refine ⟨tk, ?_, rfl, id, ?_, fun _ => rfl⟩
        · simp only [List.getElem?_append_left hlt, ht]
        · intro h; exact Event.noConfusion h
  | destroy a =>
    simp only [World.step] at hs
    split at hs
    · exact Option.noConfusion hs
    · injection hs with hs
      subst hs
      simp only [List.getElem?_map, ht, Option.map_some']
      by_cases hc : tk.object = a ∧ tk.dead = false
      · refine ⟨{ tk with dead := true }, by rw [if_pos hc], rfl, fun _ => rfl,
          fun _ => rfl, ?_⟩
        intro hne; exact absurd (by rw [hc.1]) hne
      · refine ⟨tk, by rw [if_neg hc], rfl, id, ?_, fun _ => rfl⟩
        intro he
        injection he with he
        cases hd : tk.dead with
        | true => rfl
        | false => exact absurd ⟨he.symm, hd⟩ hc

theorem World.run_append (w : World) (es1 es2 : List Event) :
    w.run (es1 ++ es2) = (w.run es1).bind fun w1 => w1.run es2 := by
  induction es1 generalizing w with
  | nil => rfl
  | cons e es ih =>
    simp only [List.cons_append, World.run]
    cases w.step e with
    | none => rfl
    | some w1 => exact ih w1

/-- What a run does to a token that exists. -/
theorem World.run_token {w w1 : World} {es : List Event} {t : Nat} {tk : Token}
    (hr : w.run es = some w1) (ht : w.tokens[t]? = some tk) :
    ∃ tk1, w1.tokens[t]? = some tk1 ∧ tk1.object = tk.object
      ∧ (tk.dead = true → tk1.dead = true)
      ∧ ((∀ e ∈ es, e ≠ .destroy tk.object) → tk1.dead = tk.dead) := by
  induction es generalizing w tk with
  | nil =>
    simp only [World.run] at hr
    injection hr with hr
    subst hr
    exact ⟨tk, ht, rfl, id, fun _ => rfl⟩
  | cons e es ih =>
    simp only [World.run] at hr
    cases hs : w.step e with
    | none => rw [hs] at hr; exact Option.noConfusion hr
    | some w2 =>
      rw [hs] at hr
      obtain ⟨tk2, ht2, ho2, hd2, _, hk2⟩ := World.step_token hs ht
      obtain ⟨tk1, ht1, ho1, hd1, hk1⟩ := ih hr ht2
      refine ⟨tk1, ht1, ho1.trans ho2, fun h => hd1 (hd2 h), ?_⟩
      intro hall
      have h1 : tk1.dead = tk2.dead :=
        hk1 fun e he => by rw [ho2]; exact hall e (List.mem_cons_of_mem _ he)
      exact h1.trans (hk2 (hall e (List.mem_cons_self _ _)))

/-- Once the owner of a token was destroyed the token is dead, whatever
happened before and whatever follows. -/
theorem World.run_destroyed {w w1 : World} {es1 es2 : List Event} {t : Nat} {tk : Token}
    (hr : w.run (es1 ++ .destroy tk.object :: es2) = some w1)
    (ht : w.tokens[t]? = some tk) :
    ∃ tk1, w1.tokens[t]? = some tk1 ∧ tk1.object = tk.object ∧ tk1.dead = true := by
  rw [World.run_append] at hr
  cases h1 : w.run es1 with
  | none => rw [h1] at hr; exact Option.noConfusion hr
  | some wa =>
    rw [h1] at hr
    simp only [Option.some_bind, World.run] at hr
    obtain ⟨tka, hta, hoa, _, _⟩ := World.run_token h1 ht
    cases h2 : wa.step (.destroy tk.object) with
    | none => rw [h2] at hr; exact Option.noConfusion hr
    | some wb =>
      rw [h2] at hr
      obtain ⟨tkb, htb, hob, _, hdb, _⟩ := World.step_token h2 hta
      obtain ⟨tk1, ht1, ho1, hd1, _⟩ := World.run_token hr htb
      exact ⟨tk1, ht1, ho1.trans (hob.trans hoa), hd1 (hdb (by rw [hoa]))⟩

theorem World.WF_step {w w1 : World} {e : Event} (hw : w.WF) (hs : w.step e = some w1) :
    w1.WF := by
  cases e with
  | construct a =>
    simp only [World.step] at hs
    split at hs
    · exact Option.noConfusion hs
    · rename_i ha
      split at hs
      · exact Option.noConfusion hs
      · rename_i hnone
        injection hs with hs
        subst hs
        refine ⟨?_, ?_⟩
        · refine List.pairwise_append.2 ⟨hw.1, List.pairwise_singleton _ _, ?_⟩
          intro x hx y hy
          rw [List.mem_singleton] at hy
          subst hy
          have := World.tokenOf_none hnone x hx
          cases hd : x.dead with
          | true => exact Or.inl rfl
          | false =>
            refine Or.inr (Or.inr ?_)
            intro ho; exact this ⟨ho, hd⟩
        · intro tk htk
          rcases List.mem_append.1 htk with h | h
          · exact hw.2 tk h
          · rw [List.mem_singleton] at h
            subst h; exact ha
  | destroy a =>
    simp only [World.step] at hs
    split at hs
    · exact Option.noConfusion hs
    · injection hs with hs
      subst hs
      refine ⟨?_, ?_⟩
      · refine List.pairwise_map.2 (hw.1.imp ?_)
        intro x y hxy
        by_cases hx : x.object = a ∧ x.dead = false
        · rw [if_pos hx]; exact Or.inl rfl
        · by_cases hy : y.object = a ∧ y.dead = false
          · rw [if_pos hy]; exact Or.inr (Or.inl rfl)
          · rw [if_neg hx, if_neg hy]; exact hxy
      · intro tk htk
        obtain ⟨x, hx, rfl⟩ := List.mem_map.1 htk
        by_cases hc : x.object = a ∧ x.dead = false
        · rw [if_pos hc]; exact hw.2 x hx
        · rw [if_neg hc]; exact hw.2 x hx

theorem World.WF_run {w w1 : World} {es : List Event} (hw : w.WF) (hr : w.run es = some w1) :
    w1.WF := by
  induction es generalizing w with
  | nil =>
    simp only [World.run] at hr
    injection hr with hr
    subst hr; exact hw
  | cons e es ih =>
    simp only [World.run] at hr
    cases hs : w.step e with
    | none => rw [hs] at hr; exact Option.noConfusion hr
    | some w2 =>
      rw [hs] at hr
      exact ih (World.WF_step hw hs) hr

theorem World.WF_init : World.init.WF := by decide

/-- In a well-formed world two tokens of live objects at the same address are
the same token. -/
theorem World.WF_unique {w : World} (hw : w.WF) {s t : Nat} {x y : Token}
    (hs : w.tokens[s]? = some x) (ht : w.tokens[t]? = some y)
    (hx : x.dead = false) (hy : y.dead = false) (ho : x.object = y.object) : s = t := by
  obtain ⟨hs1, hs2⟩ := List.getElem?_eq_some.1 hs
  obtain ⟨ht1, ht2⟩ := List.getElem?_eq_some.1 ht
  have hp := List.pairwise_iff_getElem.1 hw.1
  rcases Nat.lt_trichotomy s t with h | h | h
  · have := hp s t hs1 ht1 h
    rw [hs2, ht2, hx, hy] at this
    rcases this with h1 | h1 | h1
    · exact Bool.noConfusion h1
    · exact Bool.noConfusion h1
    · exact absurd ho h1
  · exact h
  · have := hp t s ht1 hs1 h
    rw [hs2, ht2, hx, hy] at this
    rcases this with h1 | h1 | h1
    · exact Bool.noConfusion h1
    · exact Bool.noConfusion h1
    · exact absurd ho.symm h1

/-! ## Lemmas on handles -/

theorem weak_qptr.toBool_eq (w : World) (h : weak_qptr) :
    h.toBool w = !h._object.isNull w := by
  simp only [weak_qptr.toBool, weak_qptr.empty, QPointer.toBool, QPointer.data]
  cases hn : h._object.isNull w with
  | true => simp
  | false =>
    simp only [QPointer.isNull] at hn
    split at hn
    · exact Bool.noConfusion hn
    · simp only [Bool.or_eq_false_iff, beq_eq_false_iff_ne] at hn
      simp [hn.2]

theorem weak_qptr.get_eq (w : World) (h : weak_qptr) :
    h.get w = if h.toBool w = true then h._object.value else 0 := by
  rw [weak_qptr.toBool_eq]
  simp only [weak_qptr.get, QPointer.data]
  cases h._object.isNull w <;> simp

/-- A handle is alive exactly when it references a token that exists and is
not dead, and stores a non-null address. -/
theorem weak_qptr.toBool_iff (w : World) (h : weak_qptr) :
    h.toBool w = true ↔
      ∃ t tk, h._object.d = some t ∧ w.tokens[t]? = some tk ∧ tk.dead = false
        ∧ h._object.value ≠ 0 := by
  rw [weak_qptr.toBool_eq]
  simp only [QPointer.isNull, World.isDead]
  constructor
  · intro hb
    cases hd : h._object.d with
    | none => rw [hd] at hb; simp at hb
    | some t =>
      rw [hd] at hb
      cases ht : w.tokens[t]? with
      | none => simp [ht] at hb
      | some tk =>
        simp only [ht, Bool.not_eq_true', Bool.or_eq_false_iff, beq_eq_false_iff_ne] at hb
        exact ⟨t, tk, rfl, ht, hb.1, hb.2⟩
  · rintro ⟨t, tk, hd, ht, hdead, hv⟩
    rw [hd]
    simp only [ht, hdead, Bool.false_or, Bool.not_eq_true', beq_eq_false_iff_ne]
    exact hv

theorem weak_qptr.handle_WF_step {w w1 : World} {e : Event} {h : weak_qptr}
    (hh : h.WF w) (hs : w.step e = some w1) : h.WF w1 := by
  unfold weak_qptr.WF at hh ⊢
  split
  · rename_i hd; rw [hd] at hh; exact hh
  · rename_i t hd
    rw [hd] at hh
    simp only at hh
    obtain ⟨hm, hv⟩ := hh
    cases ht : w.tokens[t]? with
    | none => rw [ht] at hm; exact Option.noConfusion hm
    | some tk =>
      rw [ht] at hm
      obtain ⟨tk1, ht1, ho1, _⟩ := World.step_token hs ht
      refine ⟨?_, hv⟩
      rw [ht1]
      simp only [Option.map_some'] at hm ⊢
      rw [ho1]; exact hm

theorem weak_qptr.handle_WF_run {w w1 : World} {es : List Event} {h : weak_qptr}
    (hh : h.WF w) (hr : w.run es = some w1) : h.WF w1 := by
  induction es generalizing w with
  | nil =>
    simp only [World.run] at hr
    injection hr with hr
    subst hr; exact hh
  | cons e es ih =>
    simp only [World.run] at hr
    cases hs : w.step e with
    | none => rw [hs] at hr; exact Option.noConfusion hr
    | some w2 =>
      rw [hs] at hr
      exact ih (weak_qptr.handle_WF_step hh hs) hr

/-- A handle built from the address of a live object is a handle of the
world, references the token of that object and stores its address. -/
theorem weak_qptr.ofPtr_spec {w : World} {a : Nat} {h : weak_qptr} (ha : a ≠ 0)
    (hh : weak_qptr.ofPtr w a = some h) :
    ∃ t tk, h._object = ⟨some t, a⟩ ∧ w.tokens[t]? = some tk ∧ tk.object = a
      ∧ tk.dead = false := by
  simp only [weak_qptr.ofPtr, QPointer.ofPtr, if_neg ha] at hh
  cases ht : w.tokenOf a with
  | none => rw [ht] at hh; exact Option.noConfusion hh
  | some t =>
    rw [ht] at hh
    simp only [Option.map_some'] at hh
    injection hh with hh
    subst hh
    obtain ⟨tk, h1, h2, h3⟩ := World.tokenOf_some ht
    exact ⟨t, tk, rfl, h1, h2, h3⟩

/-- A handle built from a null address or from the address of a live object
is a handle of the world. -/
theorem weak_qptr.ofPtr_WF {w : World} {a : Nat} {h : weak_qptr}
    (hh : weak_qptr.ofPtr w a = some h) : h.WF w := by
  by_cases ha : a = 0
  · subst ha
    simp only [weak_qptr.ofPtr, QPointer.ofPtr, if_true, Option.map_some',
      Option.some.injEq] at hh
    subst hh
    rfl
  · obtain ⟨t, tk, hobj, ht, ho, _⟩ := weak_qptr.ofPtr_spec ha hh
    unfold weak_qptr.WF
    rw [hobj]
    simp only [ht, Option.map_some', ho]
    exact ⟨trivial, ha⟩

/-! ## The claims on `weak_qptr` and `guard_traits` -/

/-- C1: a handle built from the address of a live object (by the constructor
from `T*` or by `make_weak`) is alive, not empty, and `get` returns that
address for as long as the object is not destroyed; from the destruction of the
object on, the handle is not alive, is empty, and `get` returns null. -/
theorem weak_qptr_tracks_object (w : World) (a : Nat) (h : weak_qptr)
    (ha : a ≠ 0) (hh : weak_qptr.ofPtr w a = some h) :
    make_weak w a = some h
    ∧ (∀ es w1, (∀ e ∈ es, e ≠ Event.destroy a) → w.run es = some w1 →
        h.toBool w1 = true ∧ h.empty w1 = false ∧ h.get w1 = a)
    ∧ (∀ es1 es2 w1, w.run (es1 ++ Event.destroy a :: es2) = some w1 →
        h.toBool w1 = false ∧ h.empty w1 = true ∧ h.get w1 = 0) := by
  obtain ⟨t, tk, hobj, ht, ho, hd⟩ := weak_qptr.ofPtr_spec ha hh
  subst ho
  refine ⟨hh, ?_, ?_⟩
  · intro es w1 hall hr
    obtain ⟨tk1, ht1, _, _, hk⟩ := World.run_token hr ht
    have hb : h.toBool w1 = true :=
      (weak_qptr.toBool_iff w1 h).2
        ⟨t, tk1, by rw [hobj], ht1, (hk hall).trans hd, by rw [hobj]; exact ha⟩
    refine ⟨hb, ?_, ?_⟩
    · simpa [weak_qptr.toBool] using hb
    · rw [weak_qptr.get_eq, if_pos hb, hobj]
  · intro es1 es2 w1 hr
    obtain ⟨tk1, ht1, _, hd1⟩ := World.run_destroyed hr ht
    have hb : h.toBool w1 = false := by
      cases hc : h.toBool w1 with
      | false => rfl
      | true =>
        obtain ⟨t2, tk2, h1, h2, h3, _⟩ := (weak_qptr.toBool_iff w1 h).1 hc
        rw [hobj] at h1
        injection h1 with h1
        subst h1
        rw [ht1] at h2
        injection h2 with h2
        subst h2
        rw [hd1] at h3
        exact Bool.noConfusion h3
    refine ⟨hb, ?_, ?_⟩
    · simpa [weak_qptr.toBool] using hb
    · rw [weak_qptr.get_eq, hb]; rfl

/-- C1, at an object constructed at address 1: alive while another object
comes and goes, not alive once the object is destroyed. -/
theorem weak_qptr_tracks_object_witness :
    weak_qptr.ofPtr ⟨[⟨1, false⟩]⟩ 1 = some ⟨⟨some 0, 1⟩⟩
    ∧ ((⟨⟨some 0, 1⟩⟩ : weak_qptr).toBool ⟨[⟨1, false⟩, ⟨2, true⟩]⟩ = true
        ∧ (⟨⟨some 0, 1⟩⟩ : weak_qptr).empty ⟨[⟨1, false⟩, ⟨2, true⟩]⟩ = false
        ∧ (⟨⟨some 0, 1⟩⟩ : weak_qptr).get ⟨[⟨1, false⟩, ⟨2, true⟩]⟩ = 1)
    ∧ ((⟨⟨some 0, 1⟩⟩ : weak_qptr).toBool ⟨[⟨1, true⟩, ⟨1, false⟩]⟩ = false
        ∧ (⟨⟨some 0, 1⟩⟩ : weak_qptr).empty ⟨[⟨1, true⟩, ⟨1, false⟩]⟩ = true
        ∧ (⟨⟨some 0, 1⟩⟩ : weak_qptr).get ⟨[⟨1, true⟩, ⟨1, false⟩]⟩ = 0) :=
  ⟨by decide,
    (weak_qptr_tracks_object ⟨[⟨1, false⟩]⟩ 1 ⟨⟨some 0, 1⟩⟩ (by decide) (by decide)).2.1
      [.construct 2, .destroy 2] ⟨[⟨1, false⟩, ⟨2, true⟩]⟩ (by decide) (by decide),
    (weak_qptr_tracks_object ⟨[⟨1, false⟩]⟩ 1 ⟨⟨some 0, 1⟩⟩ (by decide) (by decide)).2.2
      [] [.construct 1] ⟨[⟨1, true⟩, ⟨1, false⟩]⟩ (by decide)⟩

/-- A handle that references a token whose owner is destroyed along a run is
not alive at the end of the run. -/
theorem weak_qptr.dead_after_destroy {w w1 : World} {h : weak_qptr}
    {es1 es2 : List Event} (hwf : h.WF w) (hb : h.toBool w = true)
    (hr : w.run (es1 ++ Event.destroy (h.get w) :: es2) = some w1) :
    h.toBool w1 = false := by
  obtain ⟨t, tk, hd, ht, _, hv⟩ := (weak_qptr.toBool_iff w h).1 hb
  have hobj : tk.object = h._object.value := by
    unfold weak_qptr.WF at hwf
    rw [hd] at hwf
    simp only [ht, Option.map_some', Option.some.injEq] at hwf
    exact hwf.1
  rw [weak_qptr.get_eq, if_pos hb, ← hobj] at hr
  obtain ⟨tk1, ht1, _, hd1⟩ := World.run_destroyed hr ht
  cases hc : h.toBool w1 with
  | false => rfl
  | true =>
    obtain ⟨t2, tk2, h1, h2, h3, _⟩ := (weak_qptr.toBool_iff w1 h).1 hc
    rw [hd] at h1
    injection h1 with h1
    subst h1
    rw [ht1] at h2
    injection h2 with h2
    subst h2
    rw [hd1] at h3
    exact Bool.noConfusion h3

theorem guard_check_eq (w : World) (g : weak_qptr) :
    crl.guard_traits.check w g = g.toBool w := by
  simp only [crl.guard_traits.check, weak_qptr.toBool, weak_qptr.empty, QPointer.toBool,
    weak_qptr.get, Bool.not_not]

/-- C2: for every handle and both overloads of `create`, in every world
`check` of the guard is the liveness of the handle the guard was created from;
a guard created from a live handle checks false once the target is destroyed,
and a guard created from a null handle checks false. -/
theorem guard_check_tracks_alive (h : weak_qptr) :
    (∀ w : World, crl.guard_traits.check w (crl.guard_traits.create h) = h.toBool w
        ∧ crl.guard_traits.check w (crl.guard_traits.createMove h).1 = h.toBool w)
    ∧ (∀ (w w1 : World) (es1 es2 : List Event), h.WF w → h.toBool w = true →
        w.run (es1 ++ Event.destroy (h.get w) :: es2) = some w1 →
        crl.guard_traits.check w1 (crl.guard_traits.create h) = false
          ∧ crl.guard_traits.check w1 (crl.guard_traits.createMove h).1 = false)
    ∧ (∀ w : World,
        crl.guard_traits.check w (crl.guard_traits.create weak_qptr.default) = false
          ∧ crl.guard_traits.check w (crl.guard_traits.createMove weak_qptr.default).1 = false
          ∧ crl.guard_traits.check w (crl.guard_traits.create weak_qptr.ofNullptr) = false) := by
  have hc : crl.guard_traits.create h = h := rfl
  have hm : (crl.guard_traits.createMove h).1 = h := rfl
  refine ⟨fun w => ?_, ?_, fun w => ⟨rfl, rfl, rfl⟩⟩
  · rw [hc, hm, guard_check_eq]; exact ⟨rfl, rfl⟩
  · intro w w1 es1 es2 hwf hb hr
    rw [hc, hm, guard_check_eq]
    exact ⟨weak_qptr.dead_after_destroy hwf hb hr, weak_qptr.dead_after_destroy hwf hb hr⟩

/-- C2, at a guard created from a handle of the object at address 1, checked
after that object is destroyed. -/
theorem guard_check_tracks_alive_witness :
    (⟨⟨some 0, 1⟩⟩ : weak_qptr).WF ⟨[⟨1, false⟩]⟩
    ∧ (⟨⟨some 0, 1⟩⟩ : weak_qptr).toBool ⟨[⟨1, false⟩]⟩ = true
    ∧ World.run ⟨[⟨1, false⟩]⟩ [.destroy 1] = some ⟨[⟨1, true⟩]⟩
    ∧ crl.guard_traits.check ⟨[⟨1, true⟩]⟩ (crl.guard_traits.create ⟨⟨some 0, 1⟩⟩) = false
    ∧ crl.guard_traits.check ⟨[⟨1, true⟩]⟩ (crl.guard_traits.createMove ⟨⟨some 0, 1⟩⟩).1
        = false :=
  ⟨by decide, by decide, by decide,
    (guard_check_tracks_alive ⟨⟨some 0, 1⟩⟩).2.1 ⟨[⟨1, false⟩]⟩ ⟨[⟨1, true⟩]⟩ [] []
      (by decide) (by decide) (by decide)⟩

/-- C3 as stated fails: after the object at address 1 is destroyed a handle
bound to it compares equal to a handle never bound, and after the objects at
addresses 1 and 2 are destroyed the handles bound to them compare equal,
although the identities referenced differ. -/
theorem weak_qptr_eq_not_identity :
    World.init.run [.construct 1, .construct 2] = some ⟨[⟨1, false⟩, ⟨2, false⟩]⟩
    ∧ weak_qptr.ofPtr ⟨[⟨1, false⟩, ⟨2, false⟩]⟩ 1 = some ⟨⟨some 0, 1⟩⟩
    ∧ weak_qptr.ofPtr ⟨[⟨1, false⟩, ⟨2, false⟩]⟩ 2 = some ⟨⟨some 1, 2⟩⟩
    ∧ World.run ⟨[⟨1, false⟩, ⟨2, false⟩]⟩ [.destroy 1, .destroy 2]
        = some ⟨[⟨1, true⟩, ⟨2, true⟩]⟩
    ∧ weak_qptr.eq ⟨[⟨1, true⟩, ⟨2, true⟩]⟩ ⟨⟨some 0, 1⟩⟩ weak_qptr.default = true
    ∧ (⟨⟨some 0, 1⟩⟩ : weak_qptr)._object.d ≠ weak_qptr.default._object.d
    ∧ weak_qptr.eq ⟨[⟨1, true⟩, ⟨2, true⟩]⟩ ⟨⟨some 0, 1⟩⟩ ⟨⟨some 1, 2⟩⟩ = true
    ∧ (⟨⟨some 0, 1⟩⟩ : weak_qptr)._object.d ≠ (⟨⟨some 1, 2⟩⟩ : weak_qptr)._object.d := by
  decide

/-- C3 as amended: in a well-formed world two handles compare equal exactly
when `get` returns the same pointer for both, that is when neither is alive or
both are alive and reference the same identity; the three-way comparison
agrees.  So handles bound to two different live objects never compare equal,
and a handle bound to a live object never compares equal to a handle never
bound. -/
theorem weak_qptr_eq_iff (w : World) (a b : weak_qptr)
    (hw : w.WF) (ha : a.WF w) (hb : b.WF w) :
    (weak_qptr.eq w a b = true ↔ a.get w = b.get w)
    ∧ (weak_qptr.eq w a b = true ↔
        (a.toBool w = false ∧ b.toBool w = false)
          ∨ (a.toBool w = true ∧ b.toBool w = true ∧ a._object.d = b._object.d))
    ∧ (weak_qptr.cmp w a b = Ordering.eq ↔ weak_qptr.eq w a b = true) := by
  have heq : weak_qptr.eq w a b = true ↔ a.get w = b.get w := by
    simp only [weak_qptr.eq, QPointer.eq, weak_qptr.get, beq_iff_eq]
  refine ⟨heq, ?_, ?_⟩
  · rw [heq, weak_qptr.get_eq, weak_qptr.get_eq]
    cases hta : a.toBool w with
    | false =>
      cases htb : b.toBool w with
      | false => simp
      | true =>
        obtain ⟨_, _, _, _, _, hv⟩ := (weak_qptr.toBool_iff w b).1 htb
        simp only [Bool.false_eq_true, if_false, if_true]
        constructor
        · intro h0; exact absurd h0.symm hv
        · rintro (⟨_, h2⟩ | ⟨h2, _⟩)
          · exact Bool.noConfusion h2
          · exact h2.elim
    | true =>
      obtain ⟨s, x, hda, hsa, hxd, hva⟩ := (weak_qptr.toBool_iff w a).1 hta
      cases htb : b.toBool w with
      | false =>
        simp only [Bool.false_eq_true, if_false, if_true]
        constructor
        · intro h0; exact absurd h0 hva
        · rintro (⟨h2, _⟩ | ⟨_, h2, _⟩)
          · exact Bool.noConfusion h2
          · exact h2.elim
      | true =>
        obtain ⟨t, y, hdb, htb2, hyd, hvb⟩ := (weak_qptr.toBool_iff w b).1 htb
        have hxo : x.object = a._object.value := by
          unfold weak_qptr.WF at ha
          rw [hda] at ha
          simp only [hsa, Option.map_some', Option.some.injEq] at ha
          exact ha.1
        have hyo : y.object = b._object.value := by
          unfold weak_qptr.WF at hb
          rw [hdb] at hb
          simp only [htb2, Option.map_some', Option.some.injEq] at hb
          exact hb.1
        simp only [if_true, Bool.true_eq_false, and_self, true_and, false_or]
        constructor
        · intro hv
          rw [hda, hdb, World.WF_unique hw hsa htb2 hxd hyd (by rw [hxo, hyo, hv])]
        · intro hd
          rw [hda, hdb] at hd
          injection hd with hd
          subst hd
          rw [hsa] at htb2
          injection htb2 with h2
          subst h2
          rw [← hxo, ← hyo]
  · simp only [weak_qptr.cmp, QPointer.cmp, weak_qptr.eq, QPointer.eq, beq_iff_eq]
    exact compare_eq_iff_eq

/-- C3 as amended, at the handles of two live objects and a null handle. -/
theorem weak_qptr_eq_iff_witness :
    World.WF ⟨[⟨1, false⟩, ⟨2, false⟩]⟩
    ∧ (⟨⟨some 0, 1⟩⟩ : weak_qptr).WF ⟨[⟨1, false⟩, ⟨2, false⟩]⟩
    ∧ (⟨⟨some 1, 2⟩⟩ : weak_qptr).WF ⟨[⟨1, false⟩, ⟨2, false⟩]⟩
    ∧ (weak_qptr.eq ⟨[⟨1, false⟩, ⟨2, false⟩]⟩ ⟨⟨some 0, 1⟩⟩ ⟨⟨some 1, 2⟩⟩ = true ↔
        (⟨⟨some 0, 1⟩⟩ : weak_qptr).get ⟨[⟨1, false⟩, ⟨2, false⟩]⟩
          = (⟨⟨some 1, 2⟩⟩ : weak_qptr).get ⟨[⟨1, false⟩, ⟨2, false⟩]⟩) :=
  ⟨by decide, by decide, by decide,
    (weak_qptr_eq_iff ⟨[⟨1, false⟩, ⟨2, false⟩]⟩ ⟨⟨some 0, 1⟩⟩ ⟨⟨some 1, 2⟩⟩
      (by decide) (by decide) (by decide)).1⟩

/-- C4: once a handle of the world reported not alive, every handle that
references the same identity reports not alive, and `get` returns null, after
every sequence of constructions and destructions of objects. -/
theorem dead_stays_dead (w w1 : World) (h k : weak_qptr) (es : List Event)
    (hwf : h.WF w) (hid : k._object.d = h._object.d) (hdead : h.toBool w = false)
    (hr : w.run es = some w1) :
    k.toBool w1 = false ∧ k.get w1 = 0 ∧ h.toBool w1 = false ∧ h.get w1 = 0 := by
  have key : ∀ k : weak_qptr, k._object.d = h._object.d → k.toBool w1 = false := by
    intro k hid
    cases hc : k.toBool w1 with
    | false => rfl
    | true =>
      obtain ⟨t, tk1, hd, ht1, hd1, _⟩ := (weak_qptr.toBool_iff w1 k).1 hc
      rw [hid] at hd
      unfold weak_qptr.WF at hwf
      rw [hd] at hwf
      simp only at hwf
      cases ht : w.tokens[t]? with
      | none => rw [ht] at hwf; exact Option.noConfusion hwf.1
      | some tk =>
        have hnot : ¬ h.toBool w = true := by rw [hdead]; exact Bool.false_ne_true
        have hdd : tk.dead = true := by
          cases hx : tk.dead with
          | true => rfl
          | false => exact absurd ((weak_qptr.toBool_iff w h).2 ⟨t, tk, hd, ht, hx, hwf.2⟩) hnot
        obtain ⟨tk2, ht2, _, hd2, _⟩ := World.run_token hr ht
        rw [ht1] at ht2
        injection ht2 with ht2
        subst ht2
        rw [hd2 hdd] at hd1
        exact Bool.noConfusion hd1
  have hk := key k hid
  have hh := key h rfl
  refine ⟨hk, ?_, hh, ?_⟩
  · rw [weak_qptr.get_eq, hk]; rfl
  · rw [weak_qptr.get_eq, hh]; rfl

/-- C4, at the handle of an object destroyed at address 1, queried through a
copy after a new object was constructed at the same address. -/
theorem dead_stays_dead_witness :
    (⟨⟨some 0, 1⟩⟩ : weak_qptr).WF ⟨[⟨1, true⟩]⟩
    ∧ (⟨⟨some 0, 1⟩⟩ : weak_qptr).toBool ⟨[⟨1, true⟩]⟩ = false
    ∧ World.run ⟨[⟨1, true⟩]⟩ [.construct 1] = some ⟨[⟨1, true⟩, ⟨1, false⟩]⟩
    ∧ ((weak_qptr.copy ⟨⟨some 0, 1⟩⟩).toBool ⟨[⟨1, true⟩, ⟨1, false⟩]⟩ = false
      ∧ (weak_qptr.copy ⟨⟨some 0, 1⟩⟩).get ⟨[⟨1, true⟩, ⟨1, false⟩]⟩ = 0
      ∧ (⟨⟨some 0, 1⟩⟩ : weak_qptr).toBool ⟨[⟨1, true⟩, ⟨1, false⟩]⟩ = false
      ∧ (⟨⟨some 0, 1⟩⟩ : weak_qptr).get ⟨[⟨1, true⟩, ⟨1, false⟩]⟩ = 0) :=
  ⟨by decide, by decide, by decide,
    dead_stays_dead ⟨[⟨1, true⟩]⟩ ⟨[⟨1, true⟩, ⟨1, false⟩]⟩ ⟨⟨some 0, 1⟩⟩
      (weak_qptr.copy ⟨⟨some 0, 1⟩⟩) [.construct 1] (by decide) rfl (by decide) (by decide)⟩

/-- C5: the four comparisons with the null literal agree with liveness, and a
handle constructed by default or from `nullptr` is never alive and compares
equal to `nullptr`. -/
theorem nullptr_comparisons (w : World) (h : weak_qptr) :
    (weak_qptr.eqNullptr w h = !h.toBool w)
    ∧ (weak_qptr.nullptrEq w h = !h.toBool w)
    ∧ (weak_qptr.neNullptr w h = h.toBool w)
    ∧ (weak_qptr.nullptrNe w h = h.toBool w)
    ∧ weak_qptr.default.toBool w = false ∧ weak_qptr.ofNullptr.toBool w = false
    ∧ weak_qptr.eqNullptr w weak_qptr.default = true
    ∧ weak_qptr.nullptrEq w weak_qptr.default = true
    ∧ weak_qptr.eqNullptr w weak_qptr.ofNullptr = true
    ∧ weak_qptr.nullptrEq w weak_qptr.ofNullptr = true := by
  have h1 : weak_qptr.eqNullptr w h = !h.toBool w := by
    simp only [weak_qptr.eqNullptr, weak_qptr.toBool, weak_qptr.empty, QPointer.toBool,
      weak_qptr.get, Bool.not_not, bne, Bool.not_not]
  refine ⟨h1, h1, ?_, ?_, rfl, rfl, rfl, rfl, rfl, rfl⟩
  · simp only [weak_qptr.neNullptr, h1, Bool.not_not]
  · simp only [weak_qptr.nullptrNe, h1, Bool.not_not]

/-- The copy and move constructors and the copy and move assignments, which
take a handle of the same class, give a handle that holds what the source
held: the same identity, the same liveness and the same pointer in every
world; and once the object is destroyed, the handle built, its copies and the
source as it was are not alive. -/
theorem same_class_handle_preserves_identity (self h r : weak_qptr)
    (hr : r ∈ weak_qptr.builtFrom self h) :
    r._object.d = h._object.d
    ∧ (∀ w : World, r.toBool w = h.toBool w ∧ r.get w = h.get w)
    ∧ (∀ (w w1 : World) (es1 es2 : List Event), h.WF w → h.toBool w = true →
        w.run (es1 ++ Event.destroy (h.get w) :: es2) = some w1 →
        r.toBool w1 = false ∧ (weak_qptr.copy r).toBool w1 = false
          ∧ h.toBool w1 = false) := by
  have hrh : r = h := by
    simp only [weak_qptr.builtFrom, List.mem_cons, List.mem_singleton, List.not_mem_nil,
      or_false] at hr
    rcases hr with h1 | h1 | h1 | h1 <;> exact h1
  subst hrh
  refine ⟨rfl, fun w => ⟨rfl, rfl⟩, ?_⟩
  intro w w1 es1 es2 hwf hb hrun
  have hd := weak_qptr.dead_after_destroy hwf hb hrun
  exact ⟨hd, hd, hd⟩

/-- Whatever the classes and the handles, no converting constructor and no
converting assignment gives a handle: where the constraint of the template
holds the two classes differ, and the body then names a private member of the
other class. -/
theorem converting_operations_give_no_handle (isBaseOf : ClassId → ClassId → Bool)
    (T Other : ClassId) (self other : weak_qptr) :
    (∀ r, weak_qptr.convert isBaseOf T Other other ≠ .ok r)
    ∧ (∀ r, weak_qptr.convertMove isBaseOf T Other other ≠ .ok r)
    ∧ (∀ r, weak_qptr.convertAssign isBaseOf T Other self other ≠ .ok r)
    ∧ (∀ r, weak_qptr.convertMoveAssign isBaseOf T Other self other ≠ .ok r)
    ∧ (weak_qptr.convertible isBaseOf T Other = true →
        weak_qptr.convert isBaseOf T Other other = .error .privateMember
        ∧ weak_qptr.convertMove isBaseOf T Other other = .error .privateMember
        ∧ weak_qptr.convertAssign isBaseOf T Other self other = .error .privateMember
        ∧ weak_qptr.convertMoveAssign isBaseOf T Other self other
            = .error .privateMember) := by
  by_cases hc : weak_qptr.convertible isBaseOf T Other = true
  · have hne : weak_qptr.canAccessObject T Other = false := by
      simp only [weak_qptr.convertible, Bool.and_eq_true, decide_eq_true_eq] at hc
      simp only [weak_qptr.canAccessObject, decide_eq_false_iff_not]
      exact hc.2
    simp [weak_qptr.convert, weak_qptr.convertMove, weak_qptr.convertAssign,
      weak_qptr.convertMoveAssign, hc, hne]
  · simp [weak_qptr.convert, weak_qptr.convertMove, weak_qptr.convertAssign,
      weak_qptr.convertMoveAssign, hc]

/-- C6 fails on the code at the conversion of a handle of a derived class to a
handle of its base class: for a live object of class 1 at address 1 and its
handle, the constraint of the converting templates holds for the base class 0,
and each of the two converting constructors and of the two converting
assignments is ill-formed, its body naming the private member `_object` of
another class, so that no handle of the base class is built. -/
theorem converting_operations_ill_formed :
    weak_qptr.ofPtr ⟨[⟨1, false⟩]⟩ 1 = some ⟨⟨some 0, 1⟩⟩
    ∧ (⟨⟨some 0, 1⟩⟩ : weak_qptr).toBool ⟨[⟨1, false⟩]⟩ = true
    ∧ weak_qptr.convertible chainOfClasses 0 1 = true
    ∧ weak_qptr.convert chainOfClasses 0 1 ⟨⟨some 0, 1⟩⟩ = .error .privateMember
    ∧ weak_qptr.convertMove chainOfClasses 0 1 ⟨⟨some 0, 1⟩⟩ = .error .privateMember
    ∧ weak_qptr.convertAssign chainOfClasses 0 1 weak_qptr.default ⟨⟨some 0, 1⟩⟩
        = .error .privateMember
    ∧ weak_qptr.convertMoveAssign chainOfClasses 0 1 weak_qptr.default ⟨⟨some 0, 1⟩⟩
        = .error .privateMember :=
  ⟨by decide, by decide, by decide, rfl, rfl, rfl, rfl⟩

/-- C10: in every world the emptiness queries of a handle coincide,
`null() == empty() == (get() == nullptr) == !bool(h)`; a handle that is not
alive, bound to a destroyed object or never bound, reports `null()`, and every
public query answers for it what it answers for a handle never bound. -/
theorem emptiness_queries_coincide (w : World) (h : weak_qptr) :
    h.null w = h.empty w
    ∧ h.empty w = (h.get w == 0)
    ∧ h.empty w = !h.toBool w
    ∧ (h.toBool w = false →
        h.null w = true ∧ ∀ q : Query, observe w h q = observe w weak_qptr.default q) := by
  have hn : h.null w = !h.toBool w := by
    rw [weak_qptr.toBool_eq, Bool.not_not]; rfl
  have he : h.empty w = !h.toBool w := by
    simp only [weak_qptr.toBool, Bool.not_not]
  have hg : (h.get w == 0) = !h.toBool w := by
    simp only [weak_qptr.toBool, weak_qptr.empty, QPointer.toBool, weak_qptr.get,
      Bool.not_not, bne]
  refine ⟨hn.trans he.symm, he.trans hg.symm, he, ?_⟩
  intro hb
  refine ⟨by rw [hn, hb]; rfl, ?_⟩
  have hget : h.get w = 0 := by rw [weak_qptr.get_eq, hb]; rfl
  have hdata : h._object.data w = 0 := hget
  intro q
  cases q with
  | null => simp only [observe, hn, hb]; rfl
  | empty => simp only [observe, he, hb]; rfl
  | get => simp only [observe, hget]; rfl
  | toBool => simp only [observe, hb]; rfl
  | arrow => simp only [observe, weak_qptr.arrow, hget]; rfl
  | eqNullptr => simp only [observe, weak_qptr.eqNullptr, hget]; rfl
  | nullptrEq => simp only [observe, weak_qptr.nullptrEq, weak_qptr.eqNullptr, hget]; rfl
  | neNullptr => simp only [observe, weak_qptr.neNullptr, weak_qptr.eqNullptr, hget]; rfl
  | nullptrNe => simp only [observe, weak_qptr.nullptrNe, weak_qptr.eqNullptr, hget]; rfl
  | eqLeft other => simp only [observe, weak_qptr.eq, QPointer.eq, hdata]; rfl
  | eqRight other => simp only [observe, weak_qptr.eq, QPointer.eq, hdata]; rfl
  | cmpLeft other => simp only [observe, weak_qptr.cmp, QPointer.cmp, hdata]; rfl
  | cmpRight other => simp only [observe, weak_qptr.cmp, QPointer.cmp, hdata]; rfl
  | guardCheck =>
    simp only [observe, crl.guard_traits.check, crl.guard_traits.create, weak_qptr.copy,
      weak_qptr.get, hdata]
    rfl

/-- C10, at a handle bound to the object at address 1 after that object was
destroyed. -/
theorem emptiness_queries_coincide_witness :
    (⟨⟨some 0, 1⟩⟩ : weak_qptr).toBool ⟨[⟨1, true⟩]⟩ = false
    ∧ (⟨⟨some 0, 1⟩⟩ : weak_qptr).null ⟨[⟨1, true⟩]⟩ = true
    ∧ observe ⟨[⟨1, true⟩]⟩ ⟨⟨some 0, 1⟩⟩ (.eqLeft weak_qptr.default)
        = observe ⟨[⟨1, true⟩]⟩ weak_qptr.default (.eqLeft weak_qptr.default) :=
  ⟨by decide,
    ((emptiness_queries_coincide ⟨[⟨1, true⟩]⟩ ⟨⟨some 0, 1⟩⟩).2.2.2 (by decide)).1,
    ((emptiness_queries_coincide ⟨[⟨1, true⟩]⟩ ⟨⟨some 0, 1⟩⟩).2.2.2 (by decide)).2 _⟩

end base

namespace base.Platform

/-! ## Lemmas on paths and on the file system -/

theorem under_iff {path k : QString} :
    under path k = true ↔ ∃ r, k = path ++ '/' :: r := by
  unfold under
  rw [ List.isPrefixOf_iff_prefix]
  constructor
  · rintro ⟨t, ht⟩
    exact ⟨t, by rw [← ht]; simp⟩
  · rintro ⟨r, rfl⟩
    exact ⟨r, by simp⟩

theorem underOrSelf_iff {path k : QString} :
    underOrSelf path k = true ↔ k = path ∨ under path k = true := by
  simp [underOrSelf]

theorem under_child (path n : QString) : under path (path ++ '/' :: n) = true :=
  under_iff.2 ⟨n, rfl⟩

theorem under_trans {path n k : QString} (h : underOrSelf (path ++ '/' :: n) k = true) :
    under path k = true := by
  rcases underOrSelf_iff.1 h with rfl | h
  · exact under_child path n
  · obtain ⟨r, rfl⟩ := under_iff.1 h
    exact under_iff.2 ⟨n ++ '/' :: r, by simp⟩

theorem not_underOrSelf_child_self (path n : QString) :
    underOrSelf (path ++ '/' :: n) path = false := by
  cases hc : underOrSelf (path ++ '/' :: n) path with
  | false => rfl
  | true =>
    have hlen : ∀ r : QString, path ≠ path ++ '/' :: r := by
      intro r h
      have := congrArg List.length h
      simp at this
    rcases underOrSelf_iff.1 hc with h | h
    · exact absurd h (hlen n)
    · obtain ⟨r, hr⟩ := under_iff.1 h
      rw [List.append_assoc] at hr
      exact absurd hr (hlen _)

theorem not_under_self (path : QString) : under path path = false := by
  cases hc : under path path with
  | false => rfl
  | true =>
    obtain ⟨r, hr⟩ := under_iff.1 hc
    have := congrArg List.length hr
    simp at this

theorem lookup_filter (P : QString → Bool) (k : QString) (fs : List (QString × Kind)) :
    lookup k (fs.filter fun e => P e.1) = if P k = true then lookup k fs else none := by
  induction fs with
  | nil => simp [lookup]
  | cons e rest ih =>
    by_cases hk : e.1 = k
    · by_cases hp : P k = true
      · have : P e.1 = true := by rw [hk]; exact hp
        simp only [List.filter_cons, this, if_true, lookup, hk, hp]
      · have : ¬ P e.1 = true := by rw [hk]; exact hp
        simp only [List.filter_cons, this, if_false, Bool.false_eq_true, ih, hp]
    · by_cases hpe : P e.1 = true
      · simp only [List.filter_cons, hpe, if_true, lookup, hk, if_false, ih]
      · simp only [List.filter_cons, hpe, if_false, Bool.false_eq_true, lookup, hk, ih]

theorem lookup_some_mem {k : QString} {fs : List (QString × Kind)} {v : Kind}
    (h : lookup k fs = some v) : (k, v) ∈ fs := by
  induction fs with
  | nil => simp [lookup] at h
  | cons e rest ih =>
    unfold lookup at h
    split at h
    · rename_i hk
      injection h with h
      subst hk; subst h
      exact List.mem_cons_self _ _
    · exact List.mem_cons_of_mem _ (ih h)

theorem mem_lookup {e : QString × Kind} {fs : List (QString × Kind)} (h : e ∈ fs) :
    ∃ v, lookup e.1 fs = some v := by
  induction fs with
  | nil => simp at h
  | cons x rest ih =>
    unfold lookup
    by_cases hx : x.1 = e.1
    · exact ⟨x.2, by rw [if_pos hx]⟩
    · rw [if_neg hx]
      rcases List.mem_cons.1 h with rfl | hm
      · exact absurd rfl hx
      · exact ih hm

theorem mem_ancestors {p k : QString} : p ∈ ancestors k ↔ ∃ r, k = p ++ '/' :: r := by
  induction k generalizing p with
  | nil =>
    simp only [ancestors, List.not_mem_nil, false_iff]
    rintro ⟨r, hr⟩
    have := congrArg List.length hr
    simp only [List.length_nil, List.length_append, List.length_cons] at this
    omega
  | cons c cs ih =>
    simp only [ancestors, List.mem_append, List.mem_map]
    constructor
    · rintro (h | ⟨a, ha, rfl⟩)
      · split at h
        · rename_i hc
          rw [List.mem_singleton] at h
          subst h; subst hc
          exact ⟨cs, rfl⟩
        · simp at h
      · obtain ⟨r, hr⟩ := ih.1 ha
        exact ⟨r, by rw [hr]; rfl⟩
    · rintro ⟨r, hr⟩
      cases p with
      | nil =>
        simp only [List.nil_append, List.cons.injEq] at hr
        left
        rw [if_pos hr.1]
        exact List.mem_singleton.2 rfl
      | cons a p1 =>
        simp only [List.cons_append, List.cons.injEq] at hr
        right
        exact ⟨p1, ih.2 ⟨r, hr.2⟩, by rw [hr.1]⟩

theorem childName_eq_some {path k n : QString} :
    childName path k = some n ↔ k = path ++ '/' :: n ∧ n ≠ [] ∧ '/' ∉ n := by
  unfold childName
  constructor
  · intro h
    split at h
    · rename_i hu
      obtain ⟨r, rfl⟩ := under_iff.1 hu
      have hd : (path ++ '/' :: r).drop (path.length + 1) = r := by
        have : path ++ '/' :: r = (path ++ ['/']) ++ r := by simp
        rw [this, List.drop_left' (by simp)]
      rw [hd] at h
      split at h
      · rename_i hc
        injection h with h
        subst h
        exact ⟨rfl, hc⟩
      · exact Option.noConfusion h
    · exact Option.noConfusion h
  · rintro ⟨rfl, hne, hs⟩
    have hd : (path ++ '/' :: n).drop (path.length + 1) = n := by
      have : path ++ '/' :: n = (path ++ ['/']) ++ n := by simp
      rw [this, List.drop_left' (by simp)]
    rw [if_pos (under_child path n), hd, if_pos ⟨hne, hs⟩]



/-- A path splits in one way only at its last slash. -/
theorem split_last_slash {a b c d : QString}
    (h : a ++ '/' :: b = c ++ '/' :: d) (hb : '/' ∉ b) (hd : '/' ∉ d) : a = c ∧ b = d := by
  rcases List.append_eq_append_iff.1 h with ⟨x, hc, hx⟩ | ⟨x, ha, hx⟩
  · cases x with
    | nil =>
      simp only [List.nil_append, List.cons.injEq, true_and] at hx
      exact ⟨by simpa using hc.symm, hx⟩
    | cons y ys =>
      simp only [List.cons_append, List.cons.injEq] at hx
      exact absurd (by rw [hx.2]; simp) hb
  · cases x with
    | nil =>
      simp only [List.nil_append, List.cons.injEq, true_and] at hx
      exact ⟨by simpa using ha, hx.symm⟩
    | cons y ys =>
      simp only [List.cons_append, List.cons.injEq] at hx
      exact absurd (by rw [hx.2]; simp) hd

theorem isDotEntry_child {path n : QString} (hs : '/' ∉ n)
    (h : isDotEntry (path ++ '/' :: n) = true) : n = qstr "." ∨ n = qstr ".." := by
  simp only [isDotEntry, Bool.or_eq_true, List.isSuffixOf_iff_suffix] at h
  rcases h with ⟨t, ht⟩ | ⟨t, ht⟩
  · left
    have h1 : t ++ '/' :: ['.'] = path ++ '/' :: n := ht
    exact (split_last_slash h1 (by decide) hs).2.symm
  · right
    have h1 : t ++ '/' :: ['.', '.'] = path ++ '/' :: n := ht
    exact (split_last_slash h1 (by decide) hs).2.symm

theorem getLast_child {path n : QString} (hne : n ≠ []) (hs : '/' ∉ n) :
    (path ++ '/' :: n).getLast? ≠ some '/' := by
  intro h
  obtain ⟨ys, hys⟩ := List.getLast?_eq_some_iff.1 h
  have h1 : path ++ '/' :: n = ys ++ '/' :: [] := hys
  exact hne (split_last_slash h1 hs (by simp)).2

/-- A path splits at its first slash, if it has one. -/
theorem split_first_slash (r : QString) :
    ∃ n, '/' ∉ n ∧ (r = n ∨ ∃ r1, r = n ++ '/' :: r1) := by
  induction r with
  | nil => exact ⟨[], by simp, Or.inl rfl⟩
  | cons c cs ih =>
    by_cases hc : c = '/'
    · subst hc
      exact ⟨[], by simp, Or.inr ⟨cs, rfl⟩⟩
    · obtain ⟨n, hn, h⟩ := ih
      refine ⟨c :: n, ?_, ?_⟩
      · simp only [List.mem_cons, not_or]
        exact ⟨fun h => hc h.symm, hn⟩
      · rcases h with rfl | ⟨r1, rfl⟩
        · exact Or.inl rfl
        · exact Or.inr ⟨r1, rfl⟩

theorem readdirAll_names {fs : List (QString × Kind)} {path n : QString}
    (h : n ∈ readdirAll fs path) : n ≠ [] ∧ '/' ∉ n := by
  simp only [readdirAll, List.mem_append, List.mem_cons, List.mem_singleton,
    List.not_mem_nil, or_false, List.mem_filterMap] at h
  rcases h with (rfl | rfl) | ⟨e, _, he⟩
  · decide
  · decide
  · exact (childName_eq_some.1 he).2

/-- Every path below a directory of a tree is an entry of the directory or
lies below an entry, and `readdir` returns the name of that entry. -/
theorem readdirAll_cover {fs : List (QString × Kind)} {path : QString}
    (hb : Below path fs) {e : QString × Kind} (he : e ∈ fs) (hu : under path e.1 = true) :
    ∃ n ∈ readdirAll fs path, underOrSelf (path ++ '/' :: n) e.1 = true := by
  obtain ⟨r, hr⟩ := under_iff.1 hu
  obtain ⟨n, hn, hsplit⟩ := split_first_slash r
  obtain ⟨_, hlast, _, hanc⟩ := hb e he hu
  have hmem : ∀ e1 ∈ fs, e1.1 = path ++ '/' :: n → n ≠ [] → n ∈ readdirAll fs path := by
    intro e1 he1 heq hne
    simp only [readdirAll, List.mem_append, List.mem_filterMap]
    exact Or.inr ⟨e1, he1, childName_eq_some.2 ⟨heq, hne, hn⟩⟩
  rcases hsplit with rfl | ⟨r1, rfl⟩
  · have hne : r ≠ [] := by
      rintro rfl
      exact hlast (by rw [hr]; simp)
    exact ⟨r, hmem e he hr hne, underOrSelf_iff.2 (Or.inl hr)⟩
  · have hq : lookup (path ++ '/' :: n) fs = some .dir :=
      hanc _ (mem_ancestors.2 ⟨r1, by rw [hr]; simp⟩)
        (underOrSelf_iff.2 (Or.inr (under_child path n)))
    have hqm := lookup_some_mem hq
    have hne : n ≠ [] := by
      rintro rfl
      exact (hb _ hqm (under_child path [])).2.1 (by simp)
    refine ⟨n, hmem _ hqm rfl hne, underOrSelf_iff.2 (Or.inr (under_iff.2 ⟨r1, ?_⟩))⟩
    rw [hr]; simp

/-- Removing an entry of the directory with all that lies below it leaves a
tree below the directory. -/
theorem Below_filter {fs : List (QString × Kind)} {path : QString} (n : QString)
    (hb : Below path fs) :
    Below path (fs.filter fun e => !underOrSelf (path ++ '/' :: n) e.1) := by
  intro e he hu
  obtain ⟨hef, hnot⟩ := List.mem_filter.1 he
  obtain ⟨hk, hlast, hdot, hanc⟩ := hb e hef hu
  have hl : ∀ k, (!underOrSelf (path ++ '/' :: n) k) = true →
      lookup k (fs.filter fun e => !underOrSelf (path ++ '/' :: n) e.1) = lookup k fs := by
    intro k hk
    rw [lookup_filter (fun k => !underOrSelf (path ++ '/' :: n) k), if_pos hk]
  refine ⟨by rw [hl _ hnot]; exact hk, hlast, hdot, ?_⟩
  intro p hp hup
  rw [hl]
  · exact hanc p hp hup
  · obtain ⟨r, hr⟩ := mem_ancestors.1 hp
    cases hc : underOrSelf (path ++ '/' :: n) p with
    | false => rfl
    | true =>
      have : underOrSelf (path ++ '/' :: n) e.1 = true := by
        refine underOrSelf_iff.2 (Or.inr (under_iff.2 ?_))
        rcases underOrSelf_iff.1 hc with h | h
        · exact ⟨r, by rw [hr, h]⟩
        · obtain ⟨r2, hr2⟩ := under_iff.1 h
          exact ⟨r2 ++ '/' :: r, by rw [hr, hr2]; simp⟩
      rw [this] at hnot
      exact Bool.noConfusion hnot

/-- What lies below an entry of a tree is a tree. -/
theorem Below_child {fs : List (QString × Kind)} {path : QString} (n : QString)
    (hb : Below path fs) : Below (path ++ '/' :: n) fs := by
  intro e he hu
  have hup : under path e.1 = true := under_trans (underOrSelf_iff.2 (Or.inr hu))
  obtain ⟨hk, hlast, hdot, hanc⟩ := hb e he hup
  refine ⟨hk, hlast, hdot, fun p hp hq => hanc p hp ?_⟩
  exact underOrSelf_iff.2 (Or.inr (under_trans hq))

/-- Nothing of a tree is, or lies below, an entry that is not a directory. -/
theorem no_entry_below {fs : List (QString × Kind)} {path n : QString}
    (hb : Below path fs) (hq : lookup (path ++ '/' :: n) fs ≠ some .dir)
    {e : QString × Kind} (he : e ∈ fs) : under (path ++ '/' :: n) e.1 = false := by
  cases hc : under (path ++ '/' :: n) e.1 with
  | false => rfl
  | true =>
    obtain ⟨r, hr⟩ := under_iff.1 hc
    have hup : under path e.1 = true := under_trans (underOrSelf_iff.2 (Or.inr hc))
    exact absurd ((hb e he hup).2.2.2 _ (mem_ancestors.2 ⟨r, hr⟩)
      (underOrSelf_iff.2 (Or.inr (under_child path n)))) hq

theorem isDotEntry_dot (path n : QString) (h : n = qstr "." ∨ n = qstr "..") :
    isDotEntry (path ++ '/' :: n) = true := by
  simp only [isDotEntry, Bool.or_eq_true, List.isSuffixOf_iff_suffix]
  rcases h with rfl | rfl
  · exact Or.inl ⟨path, rfl⟩
  · exact Or.inr ⟨path, rfl⟩

/-- Nothing of a tree is, or lies below, an entry `.` or `..`. -/
theorem dot_not_in_tree {fs : List (QString × Kind)} {path n : QString}
    (hb : Below path fs) (hn : n = qstr "." ∨ n = qstr "..")
    {e : QString × Kind} (he : e ∈ fs) : underOrSelf (path ++ '/' :: n) e.1 = false := by
  have hdot := isDotEntry_dot path n hn
  cases hc : underOrSelf (path ++ '/' :: n) e.1 with
  | false => rfl
  | true =>
    rcases underOrSelf_iff.1 hc with h | h
    · have := (hb e he (by rw [h]; exact under_child path n)).2.2.1
      rw [h, hdot] at this
      exact Bool.noConfusion this
    · have hq : lookup (path ++ '/' :: n) fs = some .dir := by
        by_contra hne
        rw [no_entry_below hb hne he] at h
        exact Bool.noConfusion h
      have := (hb _ (lookup_some_mem hq) (under_child path n)).2.2.1
      rw [hdot] at this
      exact Bool.noConfusion this

theorem filter_under_child (fs : List (QString × Kind)) (path n : QString) :
    (fs.filter fun e => !underOrSelf (path ++ '/' :: n) e.1).filter (fun e => !under path e.1)
      = fs.filter fun e => !under path e.1 := by
  rw [List.filter_filter]
  refine List.filter_congr fun e _ => ?_
  cases hu : under path e.1 with
  | true => rfl
  | false =>
    cases hc : underOrSelf (path ++ '/' :: n) e.1 with
    | false => rfl
    | true => rw [under_trans hc] at hu; exact Bool.noConfusion hu

/-- The loop of `DeleteDirectory` on a tree: when the names still in the
stream cover what is left below the directory, the loop runs to its end and
leaves nothing below the directory. -/
theorem deleteEntries_tree (fuel : Nat) (hrec : DeletesTree fuel) (path : QString)
    (ns : List QString) :
    ∀ (fs : List (QString × Kind)) (log : List Call),
      (∀ n ∈ ns, n ≠ [] ∧ '/' ∉ n) → lookup path fs = some .dir → Below path fs →
      (∀ e ∈ fs, under path e.1 = true →
        ∃ n ∈ ns, underOrSelf (path ++ '/' :: n) e.1 = true) →
      (∀ e ∈ fs, e.1.length < path.length + (fuel + 1)) →
      ∃ calls, deleteEntries (DeleteDirectory fuel) path ns ⟨fs, log⟩
          = some (true, ⟨fs.filter (fun e => !under path e.1), log ++ calls⟩)
        ∧ ∀ c ∈ calls, isDotEntry c.path = false := by
  induction ns with
  | nil =>
    intro fs log _ _ _ hcover _
    refine ⟨[], ?_, by simp⟩
    have hfs : fs.filter (fun e => !under path e.1) = fs := by
      refine List.filter_eq_self.2 fun e he => ?_
      cases hu : under path e.1 with
      | false => rfl
      | true =>
        obtain ⟨n, hn, _⟩ := hcover e he hu
        simp at hn
    simp only [deleteEntries, hfs, List.append_nil]
  | cons n rest ih =>
    intro fs log hnames hpath hb hcover hlen
    have hrest : ∀ m ∈ rest, m ≠ [] ∧ '/' ∉ m :=
      fun m hm => hnames m (List.mem_cons_of_mem _ hm)
    obtain ⟨hne, hslash⟩ := hnames n (List.mem_cons_self _ _)
    by_cases hdot : n = qstr "." ∨ n = qstr ".."
    · simp only [deleteEntries, if_pos hdot]
      refine ih fs log hrest hpath hb ?_ hlen
      intro e he hu
      obtain ⟨m, hm, hme⟩ := hcover e he hu
      rcases List.mem_cons.1 hm with rfl | hm
      · rw [dot_not_in_tree hb hdot he] at hme
        exact Bool.noConfusion hme
      · exact ⟨m, hm, hme⟩
    · -- what follows once the entry and all below it are gone
      have cont : ∀ mid : List Call, (∀ c ∈ mid, isDotEntry c.path = false) →
          ∃ calls, deleteEntries (DeleteDirectory fuel) path rest
              ⟨fs.filter (fun e => !underOrSelf (path ++ '/' :: n) e.1), log ++ mid⟩
            = some (true, ⟨fs.filter (fun e => !under path e.1), log ++ calls⟩)
          ∧ ∀ c ∈ calls, isDotEntry c.path = false := by
        intro mid hmid
        obtain ⟨calls, hc, hcd⟩ := ih
          (fs.filter fun e => !underOrSelf (path ++ '/' :: n) e.1) (log ++ mid) hrest
          (by
            rw [lookup_filter (fun k => !underOrSelf (path ++ '/' :: n) k),
              if_pos (by rw [not_underOrSelf_child_self]; rfl)]
            exact hpath)
          (Below_filter n hb)
          (by
            intro e he hu
            obtain ⟨hef, hnot⟩ := List.mem_filter.1 he
            obtain ⟨m, hm, hme⟩ := hcover e hef hu
            rcases List.mem_cons.1 hm with rfl | hm
            · rw [hme] at hnot; exact Bool.noConfusion hnot
            · exact ⟨m, hm, hme⟩)
          (fun e he => hlen e (List.mem_filter.1 he).1)
        refine ⟨mid ++ calls, ?_, ?_⟩
        · rw [hc, filter_under_child, List.append_assoc]
        · intro c hcm
          rcases List.mem_append.1 hcm with h | h
          · exact hmid c h
          · exact hcd c h
      have hnd : isDotEntry (path ++ '/' :: n) = false := by
        cases hc : isDotEntry (path ++ '/' :: n) with
        | false => rfl
        | true => exact absurd (isDotEntry_child hslash hc) hdot
      simp only [deleteEntries, if_neg hdot]
      cases hq : lookup (path ++ '/' :: n) fs with
      | none =>
        have hfs : fs.filter (fun e => !underOrSelf (path ++ '/' :: n) e.1) = fs := by
          refine List.filter_eq_self.2 fun e he => ?_
          cases hc : underOrSelf (path ++ '/' :: n) e.1 with
          | false => rfl
          | true =>
            rcases underOrSelf_iff.1 hc with h | h
            · obtain ⟨v, hv⟩ := mem_lookup he
              rw [h, hq] at hv
              exact Option.noConfusion hv
            · rw [no_entry_below hb (by rw [hq]; exact fun h => Option.noConfusion h) he] at h
              exact Bool.noConfusion h
        have := cont [.stat (path ++ '/' :: n)] (by
          intro c hc
          rw [List.mem_singleton] at hc
          subst hc; exact hnd)
        rw [hfs] at this
        simpa only [stat, hq] using this
      | some kind =>
        cases kind with
        | brokenLink =>
          rcases (hb _ (lookup_some_mem hq) (under_child path n)).1 with h | h
          · rw [hq] at h; exact absurd h (by decide)
          · rw [hq] at h; exact absurd h (by decide)
        | file =>
          have hfs : fs.filter (fun e => decide (e.1 ≠ path ++ '/' :: n))
              = fs.filter (fun e => !underOrSelf (path ++ '/' :: n) e.1) := by
            refine List.filter_congr fun e he => ?_
            have := no_entry_below hb (by rw [hq]; exact fun h => by cases h) he
            simp [underOrSelf, this]
          have := cont [.stat (path ++ '/' :: n), .unlink (path ++ '/' :: n)] (by
            intro c hc
            simp only [List.mem_cons, List.mem_singleton, List.not_mem_nil, or_false] at hc
            rcases hc with rfl | rfl <;> exact hnd)
          rw [← hfs] at this
          simpa [stat, hq, S_ISDIR, unlink] using this
        | dir =>
          obtain ⟨c1, h1, h1d⟩ := hrec (path ++ '/' :: n) fs (log ++ [.stat (path ++ '/' :: n)])
            (getLast_child hne hslash) ⟨hq, Below_child n hb⟩
            (fun e he => by
              have := hlen e he
              simp only [List.length_append, List.length_cons]
              omega)
          have := cont (.stat (path ++ '/' :: n) :: c1) (by
            intro c hc
            rcases List.mem_cons.1 hc with rfl | hc
            · exact hnd
            · rcases h1d c hc with h | h
              · rw [h]; exact hnd
              · exact h)
          simp only [stat, hq, S_ISDIR, decide_True, if_true, h1, Bool.not_true,
            Bool.false_eq_true, if_false, List.append_assoc, List.singleton_append]
          exact this

theorem chopSlash_of_no_slash {path : QString} (h : path.getLast? ≠ some '/') :
    chopSlash path = path := by
  simp only [chopSlash, if_neg h]

theorem chopSlash_append_slash (path : QString) : chopSlash (path ++ ['/']) = path := by
  simp only [chopSlash, List.getLast?_concat, if_true, List.dropLast_concat]

/-- With enough fuel `DeleteDirectory` succeeds on every tree. -/
theorem deletesTree_all (fuel : Nat) : DeletesTree fuel := by
  induction fuel with
  | zero =>
    intro path fs log _ htree hlen
    have := hlen _ (lookup_some_mem htree.1)
    simp at this
  | succ fuel ih =>
    intro path fs log hlast htree hlen
    obtain ⟨calls, hloop, hcalls⟩ := deleteEntries_tree fuel ih path (readdirAll fs path) fs
      (log ++ [.opendir path]) (fun n hn => readdirAll_names hn) htree.1 htree.2
      (fun e he hu => readdirAll_cover htree.2 he hu) hlen
    have hlook : lookup path (fs.filter fun e => !under path e.1) = some .dir := by
      rw [lookup_filter (fun k => !under path k), if_pos (by rw [not_under_self]; rfl)]
      exact htree.1
    have hall : (fs.filter fun e => !under path e.1).all (fun e => !under path e.1) = true :=
      List.all_eq_true.2 fun e he => (List.mem_filter.1 he).2
    have hfs : (fs.filter fun e => !under path e.1).filter (fun e => decide (e.1 ≠ path))
        = fs.filter fun e => !underOrSelf path e.1 := by
      rw [List.filter_filter]
      refine List.filter_congr fun e _ => ?_
      by_cases he : e.1 = path <;> simp [underOrSelf, he]
    refine ⟨Call.opendir path :: (calls ++ [.rmdir path]), ?_, ?_⟩
    · simp only [DeleteDirectory, chopSlash_of_no_slash hlast, opendir, htree.1, hloop,
        Bool.not_true, Bool.false_eq_true, if_false, rmdir, hlook, hall, if_true, hfs,
        beq_self_eq_true, List.append_assoc, List.singleton_append, List.cons_append,
        List.nil_append]
    · intro c hc
      rcases List.mem_cons.1 hc with rfl | hc
      · exact Or.inl rfl
      · rcases List.mem_append.1 hc with h | h
        · exact Or.inr (hcalls c h)
        · rw [List.mem_singleton] at h
          subst h; exact Or.inl rfl

/-- A trailing slash on the path changes nothing. -/
theorem DeleteDirectory_trailing_slash (fuel : Nat) (path : QString) (s : Sys)
    (hlast : path.getLast? ≠ some '/') :
    DeleteDirectory fuel (path ++ ['/']) s = DeleteDirectory fuel path s := by
  cases fuel with
  | zero => rfl
  | succ fuel =>
    simp only [DeleteDirectory, chopSlash_append_slash, chopSlash_of_no_slash hlast]

/-! ## The claims on the file utilities -/

/-- C7: on a finite tree of regular files and directories rooted at `path`,
`DeleteDirectory` returns, with every bound on the recursion larger than the
length of the paths, the value true; afterwards neither `path` nor anything
below it exists and every other path is as before; no call is made on an
entry `.` or `..`; and a trailing slash on `path` changes nothing. -/
theorem DeleteDirectory_removes_tree (fuel : Nat) (path : QString) (s : Sys)
    (hlast : path.getLast? ≠ some '/') (htree : TreeOK path s.fs)
    (hfuel : ∀ e ∈ s.fs, e.1.length < fuel) :
    ∃ s1 calls, DeleteDirectory fuel path s = some (true, s1)
      ∧ DeleteDirectory fuel (path ++ ['/']) s = some (true, s1)
      ∧ s1.fs = s.fs.filter (fun e => !underOrSelf path e.1)
      ∧ lookup path s1.fs = none
      ∧ (∀ k, under path k = true → lookup k s1.fs = none)
      ∧ (∀ k, underOrSelf path k = false → lookup k s1.fs = lookup k s.fs)
      ∧ s1.log = s.log ++ calls
      ∧ ∀ c ∈ calls, c.path = path ∨ isDotEntry c.path = false := by
  obtain ⟨calls, hrun, hcalls⟩ := deletesTree_all fuel path s.fs s.log hlast htree
    (fun e he => Nat.lt_of_lt_of_le (hfuel e he) (Nat.le_add_left _ _))
  refine ⟨_, calls, hrun, ?_, rfl, ?_, ?_, ?_, rfl, hcalls⟩
  · rw [DeleteDirectory_trailing_slash fuel path s hlast]; exact hrun
  · rw [lookup_filter (fun k => !underOrSelf path k), if_neg]
    simp [underOrSelf]
  · intro k hk
    rw [lookup_filter (fun k => !underOrSelf path k), if_neg]
    simp [underOrSelf, hk]
  · intro k hk
    rw [lookup_filter (fun k => !underOrSelf path k), if_pos]
    simp [hk]

/-- C7, at a directory `d` with a file and a directory holding a file, next to
a file `e` and a directory `dd`, which are left. -/
theorem DeleteDirectory_removes_tree_witness :
    TreeOK (qstr "d") smallTree.fs
    ∧ ∃ s1 calls, DeleteDirectory 6 (qstr "d") smallTree = some (true, s1)
      ∧ DeleteDirectory 6 (qstr "d" ++ ['/']) smallTree = some (true, s1)
      ∧ s1.fs = smallTree.fs.filter (fun e => !underOrSelf (qstr "d") e.1)
      ∧ lookup (qstr "d") s1.fs = none
      ∧ (∀ k, under (qstr "d") k = true → lookup k s1.fs = none)
      ∧ (∀ k, underOrSelf (qstr "d") k = false → lookup k s1.fs = lookup k smallTree.fs)
      ∧ s1.log = smallTree.log ++ calls
      ∧ ∀ c ∈ calls, c.path = qstr "d" ∨ isDotEntry c.path = false :=
  ⟨by decide,
    DeleteDirectory_removes_tree 6 (qstr "d") smallTree (by decide) (by decide) (by decide)⟩

/-- C8 fails on the code at a directory `d` that holds a link to nothing `x`
and a file `y`: `stat` fails on `d/x`, and `DeleteDirectory` goes on to
unlink `d/y` and to call `rmdir` before it returns false. -/
theorem DeleteDirectory_goes_on_after_stat_failure :
    (stat (qstr "d/x") brokenLinkTree).1 = none
    ∧ DeleteDirectory 3 (qstr "d") brokenLinkTree
      = some (false,
          { fs := [(qstr "d", .dir), (qstr "d/x", .brokenLink)],
            log := [.opendir (qstr "d"), .stat (qstr "d/x"), .stat (qstr "d/y"),
              .unlink (qstr "d/y"), .rmdir (qstr "d")] }) := by
  decide

/-- C9 as stated fails in a build without DBus integration: `ShowInFolder`
returns false although the DBus file manager would have answered, and neither
the DBus nor the portal attempt is made. -/
theorem ShowInFolder_skips_dbus :
    outcome desktopNoDBus (qstr "f") .dbus = true
    ∧ ShowInFolder desktopNoDBus (qstr "f")
      = (false, [(.process, qstr "/home/f"), (.launchUri, qstr "/home"),
          (.openUrl, qstr "/home")]) := by
  decide

/-- C9 as amended: `ShowInFolder` tries the strategies compiled into the
build, all five with DBus integration and the last three without, in the
order of the source, each on the path specified for it, and stops at the first
that succeeds; it returns true exactly when one of them succeeds, and false
exactly when all of them fail, and then after having tried all of them. -/
theorem ShowInFolder_first_success (env : Desktop) (filepath : QString) :
    chain env = (if env.dbusIntegration = true
        then [.dbus, .portal, .process, .launchUri, .openUrl]
        else [.process, .launchUri, .openUrl])
    ∧ (ShowInFolder env filepath).2 = untilFirstSuccess env filepath (chain env)
    ∧ ((ShowInFolder env filepath).1 = true ↔
        ∃ s ∈ chain env, outcome env filepath s = true)
    ∧ ((ShowInFolder env filepath).1 = false ↔
        (∀ s ∈ chain env, outcome env filepath s = false)
          ∧ (ShowInFolder env filepath).2
            = (chain env).map fun s => (s, argument env filepath s)) := by
  refine ⟨rfl, ?_, ?_, ?_⟩ <;>
  cases h0 : env.dbusIntegration <;>
  cases h1 : DBusShowInFolder env (env.absoluteFilePath filepath) <;>
  cases h2 : PortalShowInFolder env (env.absoluteFilePath filepath) <;>
  cases h3 : ProcessShowInFolder env (env.absoluteFilePath filepath) <;>
  cases h4 : env.launchDefaultForUri (env.absoluteDirPath filepath) <;>
  cases h5 : env.openUrl (env.absoluteDirPath filepath) <;>
  simp [ShowInFolder, ShowInFolderRest, chain, untilFirstSuccess, outcome, argument,
    h0, h1, h2, h3, h4, h5]

/-- C9 as amended, at a build with DBus integration on a desktop where the
DBus file manager does not answer and the portal does. -/
theorem ShowInFolder_first_success_witness :
    chain desktopPortal = [.dbus, .portal, .process, .launchUri, .openUrl]
    ∧ (ShowInFolder desktopPortal (qstr "f")).2
        = [(.dbus, qstr "/home/f"), (.portal, qstr "/home/f")]
    ∧ (ShowInFolder desktopPortal (qstr "f")).1 = true :=
  ⟨(ShowInFolder_first_success desktopPortal (qstr "f")).1.trans (by decide),
    (ShowInFolder_first_success desktopPortal (qstr "f")).2.1.trans (by decide),
    (ShowInFolder_first_success desktopPortal (qstr "f")).2.2.1.2
      ⟨.portal, by decide, by decide⟩⟩

end base.Platform
